import Mathlib

/-!
Verification development for the figma_style_to_flutter repository.

The repository consists of three small Python scripts.  The two scripts
relevant here share almost all of their logic:

* main.py fetches a whole Figma file and walks its node tree, collecting
  solid-fill colors into a dict and deduplicated text styles into a list,
  then renders colors.xml and text_font_style.dart.
* import_colors_and_text_font_styles_by_id.py does the same for a single
  node of a file, with a slightly different style-name template, a
  fallback-font block in the dart output, and extra logic to locate the
  requested node in the response mapping.

The development embeds the Python functions shallowly:

* Python floats are modelled as rationals; Python round (banker's
  rounding) and int() (truncation toward zero) are modelled explicitly.
* JSON nodes are modelled by the Node inductive below.  A key that the
  code reads with a bare subscript (node["style"], fill["type"],
  fill["color"]) and that may be absent is an Option; reading a missing
  key is an exception, modelled with Except.  Keys that the code only
  reads through .get with a default ("fills", "children") are modelled
  directly by the defaulted value, since an absent key and the default
  are indistinguishable to the code.
* Python dicts are association lists with dict semantics (update keeps
  position, fresh keys append); Python sets are lists used only through
  membership.
* Python sorted is a stable sort by a total preorder; it is modelled by
  List.insertionSort, which is stable for the same preorder and hence
  produces the same list.
* String formatting ("{:02X}", str(int), f-strings) is modelled by
  explicit character-list constructions.
-/

set_option maxRecDepth 40000

/-- Uppercase hexadecimal digit character for a value 0..15 (as produced by
Python "{:02X}" formatting). -/
def hexDigitChar : ℕ → Char
  | 0 => '0' | 1 => '1' | 2 => '2' | 3 => '3' | 4 => '4' | 5 => '5' | 6 => '6' | 7 => '7'
  | 8 => '8' | 9 => '9' | 10 => 'A' | 11 => 'B' | 12 => 'C' | 13 => 'D' | 14 => 'E' | _ => 'F'

/-- Hexadecimal digits of a natural number, most significant first, with an
explicit fuel argument to keep the recursion structural.  Called with
fuel greater than the number, which always suffices since the argument
shrinks by a factor of 16 every step. -/
def natHexRev : ℕ → ℕ → List Char
  | 0, _ => []
  | fuel+1, n => if n < 16 then [hexDigitChar n] else natHexRev fuel (n / 16) ++ [hexDigitChar (n % 16)]

/-- Hexadecimal digits of a natural number, most significant first. -/
def natToHex (n : ℕ) : List Char := natHexRev (n + 1) n

/-- Pad a digit string on the left with one zero if it is shorter than two
characters (the 02 part of Python "{:02X}"). -/
def leftPad2 (l : List Char) : List Char := if l.length < 2 then '0' :: l else l

/-- Python "{:02X}".format(i): uppercase hexadecimal, total width at least 2
including a minus sign for negative values. -/
def formatHex2 (i : ℤ) : String :=
  if i < 0 then String.mk ('-' :: natToHex i.natAbs)
  else String.mk (leftPad2 (natToHex i.toNat))

/-- Decimal digit character for a value 0..9. -/
def decDigitChar (n : ℕ) : Char :=
  if n = 0 then '0' else if n = 1 then '1' else if n = 2 then '2' else if n = 3 then '3'
  else if n = 4 then '4' else if n = 5 then '5' else if n = 6 then '6' else if n = 7 then '7'
  else if n = 8 then '8' else '9'

/-- Decimal digits of a natural number, most significant first, with fuel
(see natHexRev). -/
def natDecRev : ℕ → ℕ → List Char
  | 0, _ => []
  | fuel+1, n => if n < 10 then [decDigitChar n] else natDecRev fuel (n / 10) ++ [decDigitChar (n % 10)]

/-- Decimal digits of a natural number, most significant first. -/
def natToDec (n : ℕ) : List Char := natDecRev (n + 1) n

/-- Python str(i) for an integer i, as used inside the f-strings of the
scripts. -/
def intStr (i : ℤ) : String :=
  if i < 0 then String.mk ('-' :: natToDec i.natAbs) else String.mk (natToDec i.toNat)

/-- Python round(q): round half to even (banker's rounding). -/
def pyRound (q : ℚ) : ℤ :=
  if q - ⌊q⌋ < 1/2 then ⌊q⌋
  else if (1 : ℚ)/2 < q - ⌊q⌋ then ⌊q⌋ + 1
  else if ⌊q⌋ % 2 = 0 then ⌊q⌋ else ⌊q⌋ + 1

/-- Python int(q) on a number: truncation toward zero. -/
def pyInt (q : ℚ) : ℤ := if 0 ≤ q then ⌊q⌋ else -⌊-q⌋

/-- Python string comparison a < b: lexicographic on code points. -/
def strLtB : List Char → List Char → Bool
  | [], [] => false
  | [], _ :: _ => true
  | _ :: _, [] => false
  | a :: as, b :: bs =>
    if a.toNat < b.toNat then true
    else if b.toNat < a.toNat then false
    else strLtB as bs

/-- Python string comparison a <= b. -/
def strLeB (a b : List Char) : Bool := !(strLtB b a)

/-- Python dict lookup d.get(k): the value stored at the (first occurrence
of the) key, if present. -/
def lookupA {α : Type} : List (String × α) → String → Option α
  | [], _ => none
  | p :: rest, k => if p.1 == k then some p.2 else lookupA rest k

/-- Python dict assignment d[k] = v: an existing key keeps its position and
gets the new value, a fresh key is appended at the end. -/
def dictInsert (d : List (String × String)) (k v : String) : List (String × String) :=
  if d.any (fun p => p.1 == k) then d.map (fun p => if p.1 == k then (k, v) else p)
  else d ++ [(k, v)]

/-- Python \W (non-word character), complement of [a-zA-Z0-9_] (the fonts
handled here are ASCII-named). -/
def isWordChar (c : Char) : Bool := c.isAlphanum || c = '_'

/-- Python re.sub(r'\W+', '', s): remove every non-word character. -/
def re_sub_nonword (s : String) : String := String.mk (s.data.filter isWordChar)

/-- A Figma color object with normalized channels, as read by
rgb_to_hex / rgba_to_hex (the alpha channel is never read). -/
structure RGBA where
  r : ℚ
  g : ℚ
  b : ℚ
deriving DecidableEq

/-- A Figma fill object.  The scripts read fill["type"] and fill["color"]
with bare subscripts, so an absent key (None here) raises. -/
structure Fill where
  type : Option String
  color : Option RGBA
deriving DecidableEq

/-- The style object of a Figma text node, read only through .get, with the
defaults applied by parse_text_style when a field is absent. -/
structure TextStyleProps where
  fontFamily : Option String
  fontWeight : Option ℤ
  fontSize : Option ℚ
deriving DecidableEq

/-- A node of the Figma document tree.  type is read via node.get('type'),
style via the raising subscript node['style']; fills and children are
only iterated when present, so an absent key is modelled by the empty
list. -/
inductive Node where
  | mk (type : Option String) (fills : List Fill) (style : Option TextStyleProps)
       (children : List Node)

def Node.type : Node → Option String
  | .mk t _ _ _ => t

def Node.fills : Node → List Fill
  | .mk _ f _ _ => f

def Node.style : Node → Option TextStyleProps
  | .mk _ _ s _ => s

def Node.children : Node → List Node
  | .mk _ _ _ c => c

/-- A style definition dict built by parse_node. -/
structure StyleDef where
  name : String
  fontFamily : String
  color : String
  fontSize : ℤ
  fontWeight : ℤ
deriving DecidableEq

/-- The mutable collections of one processing run: the colors dict, the
text_styles list and the unique_styles set. -/
structure WalkState where
  colors : List (String × String)
  text_styles : List StyleDef
  unique_styles : List String
deriving DecidableEq

/-- Initial state: colors = dict(), text_styles = list(), unique_styles = set(). -/
def initState : WalkState := ⟨[], [], []⟩

deriving instance DecidableEq for Except

def COLORS_OUTPUT : String := "colors.xml"

def TEXTSTYLES_OUTPUT : String := "text_font_style.dart"

def FALLBACK_FONTS : List String := ["Open Sans", "Roboto", "Noto Sans"]

/-- rgb_to_hex(r, g, b) of main.py (identical in the by-id script):
"{:02X}{:02X}{:02X}".format(round(r*255), round(g*255), round(b*255)). -/
def rgb_to_hex (r g b : ℚ) : String :=
  formatHex2 (pyRound (r * 255)) ++ formatHex2 (pyRound (g * 255)) ++ formatHex2 (pyRound (b * 255))

/-- rgba_to_hex(rgba) of main.py (identical in the by-id script): same
conversion, reading the channels from one color object (alpha unused). -/
def rgba_to_hex (rgba : RGBA) : String :=
  formatHex2 (pyRound (rgba.r * 255)) ++ formatHex2 (pyRound (rgba.g * 255)) ++ formatHex2 (pyRound (rgba.b * 255))

/-- The generator expression next((f for f in fills if f['type']=="SOLID"), None)
of parse_text_style: scan fills left to right, stopping at the first fill
whose type is "SOLID"; reading the type of a fill without one raises. -/
def next_solid_fill : List Fill → Except Unit (Option Fill)
  | [] => .ok none
  | f :: fs =>
    match f.type with
    | none => .error ()
    | some ty => if ty = "SOLID" then .ok (some f) else next_solid_fill fs

/-- The body of the try block of parse_text_style: node['style'] (raising if
absent), defaulted fontFamily / fontWeight / fontSize, and the color of
the first solid fill of the node's own fills (default "000000"). -/
def parse_text_style_try (node : Node) : Except Unit (String × ℤ × ℤ × String) :=
  match node.style with
  | none => .error ()
  | some style =>
    let fontFamily := match style.fontFamily with
      | none => "FontNotFound"
      | some s => if s = "" then "FontNotFound" else s
    let fontWeight := style.fontWeight.getD 400
    let fontSize := pyInt (style.fontSize.getD 14)
    if node.fills.isEmpty then .ok (fontFamily, fontWeight, fontSize, "000000")
    else
      match next_solid_fill node.fills with
      | .error e => .error e
      | .ok none => .ok (fontFamily, fontWeight, fontSize, "000000")
      | .ok (some f) =>
        match f.color with
        | none => .error ()
        | some c => .ok (fontFamily, fontWeight, fontSize, rgba_to_hex c)

/-- parse_text_style(node) (identical in both scripts): the try body, with
any exception caught and replaced by the full fallback tuple. -/
def parse_text_style (node : Node) : String × ℤ × ℤ × String :=
  match parse_text_style_try node with
  | .ok t => t
  | .error _ => ("FontNotFound", 400, 14, "000000")

/-- The fills loop of parse_node (identical in both scripts): for every fill
of type "SOLID", store colors[c<hex>] = #<hex>; reading the type of a
fill without one, or the color of a solid fill without one, raises. -/
def parse_fills : List Fill → List (String × String) → Except Unit (List (String × String))
  | [], colors => .ok colors
  | f :: fs, colors =>
    match f.type with
    | none => .error ()
    | some ty =>
      if ty = "SOLID" then
        match f.color with
        | none => .error ()
        | some c =>
          let hex := rgb_to_hex c.r c.g c.b
          parse_fills fs (dictInsert colors ("c" ++ hex) ("#" ++ hex))
      else parse_fills fs colors

/-- The uniqueness key f"{fontSize}_{color}_{fontWeight}_{fontName}"
(identical in both scripts). -/
def style_key (fontSize : ℤ) (color : String) (fontWeight : ℤ) (fontName : String) : String :=
  intStr fontSize ++ "_" ++ color ++ "_" ++ intStr fontWeight ++ "_" ++ fontName

namespace Main

/-- The style name f"text{fontSize}c{color}w{fontWeight}{fontName}" of
main.py. -/
def style_name (fontSize : ℤ) (color : String) (fontWeight : ℤ) (fontName : String) : String :=
  "text" ++ intStr fontSize ++ "c" ++ color ++ "w" ++ intStr fontWeight ++ fontName

/-- The text-style branch of parse_node in main.py: extract the style
tuple, build the style name and definition, and append the definition
only when the uniqueness key is new. -/
def text_step (node : Node) (st : WalkState) : WalkState :=
  match parse_text_style node with
  | (fontFamily, fontWeight, fontSize, color) =>
    let fontName := re_sub_nonword fontFamily
    let sname := style_name fontSize color fontWeight fontName
    let sdef : StyleDef := ⟨sname, fontFamily, color, fontSize, fontWeight⟩
    let skey := style_key fontSize color fontWeight fontName
    if skey ∈ st.unique_styles then st
    else { st with unique_styles := skey :: st.unique_styles,
                   text_styles := st.text_styles ++ [sdef] }

mutual

/-- parse_node of main.py: process the fills, then the text-style branch
when node.get('type') == "TEXT", then recurse into the children in
order.  An exception escaping the fills loop aborts the whole walk. -/
def parse_node : Node → WalkState → Except Unit WalkState
  | Node.mk ty fills style children, st =>
    match parse_fills fills st.colors with
    | .error e => .error e
    | .ok cs =>
      parse_nodes children
        (if ty = some "TEXT" then text_step (Node.mk ty fills style children) { st with colors := cs }
         else { st with colors := cs })

/-- The children loop of parse_node of main.py. -/
def parse_nodes : List Node → WalkState → Except Unit WalkState
  | [], st => .ok st
  | n :: rest, st =>
    match parse_node n st with
    | .error e => .error e
    | .ok st' => parse_nodes rest st'

end

end Main

namespace ById

/-- The style name f"textStyle{fontSize}c{color}{fontName}{fontWeight}" of
import_colors_and_text_font_styles_by_id.py. -/
def style_name (fontSize : ℤ) (color : String) (fontWeight : ℤ) (fontName : String) : String :=
  "textStyle" ++ intStr fontSize ++ "c" ++ color ++ fontName ++ intStr fontWeight

/-- The text-style branch of parse_node in the by-id script; identical to
the main.py branch except for the style-name template. -/
def text_step (node : Node) (st : WalkState) : WalkState :=
  match parse_text_style node with
  | (fontFamily, fontWeight, fontSize, color) =>
    let fontName := re_sub_nonword fontFamily
    let sname := style_name fontSize color fontWeight fontName
    let sdef : StyleDef := ⟨sname, fontFamily, color, fontSize, fontWeight⟩
    let skey := style_key fontSize color fontWeight fontName
    if skey ∈ st.unique_styles then st
    else { st with unique_styles := skey :: st.unique_styles,
                   text_styles := st.text_styles ++ [sdef] }

mutual

/-- parse_node of the by-id script (same traversal as main.py). -/
def parse_node : Node → WalkState → Except Unit WalkState
  | Node.mk ty fills style children, st =>
    match parse_fills fills st.colors with
    | .error e => .error e
    | .ok cs =>
      parse_nodes children
        (if ty = some "TEXT" then text_step (Node.mk ty fills style children) { st with colors := cs }
         else { st with colors := cs })

/-- The children loop of parse_node of the by-id script. -/
def parse_nodes : List Node → WalkState → Except Unit WalkState
  | [], st => .ok st
  | n :: rest, st =>
    match parse_node n st with
    | .error e => .error e
    | .ok st' => parse_nodes rest st'

end

end ById

/-- Python tuple comparison (key1, value1) <= (key2, value2) used by
sorted(colors.items()): lexicographic, keys first. -/
def pairLeB (p q : String × String) : Bool :=
  if strLtB p.1.data q.1.data then true
  else if strLtB q.1.data p.1.data then false
  else strLeB p.2.data q.2.data

def pairLe (p q : String × String) : Prop := pairLeB p q = true

instance : DecidableRel pairLe := fun _ _ => inferInstanceAs (Decidable (_ = true))

/-- sorted(colors.items()) of save_colors_xml: Python sorted is the stable
sort by the tuple order, which insertionSort with the same total
preorder reproduces exactly. -/
def sorted_colors (colors : List (String × String)) : List (String × String) :=
  List.insertionSort pairLe colors

/-- save_colors_xml (identical in both scripts), modelled as the produced
file content. -/
def save_colors_xml (colors : List (String × String)) : String :=
  (sorted_colors colors).foldl
    (fun acc p => acc ++ "  <color name=\"" ++ p.1 ++ "\">" ++ p.2 ++ "</color>\n")
    "<?xml version=\"1.0\" encoding=\"UTF-8\"?>\n<colors>\n"
  ++ "</colors>\n"

/-- The comparison underlying sorted(text_styles, key=lambda x:
(x['fontSize'], x['color'], x['fontWeight'])): lexicographic order on the
key triple. -/
def styleLeB (x y : StyleDef) : Bool :=
  if x.fontSize < y.fontSize then true
  else if y.fontSize < x.fontSize then false
  else if strLtB x.color.data y.color.data then true
  else if strLtB y.color.data x.color.data then false
  else x.fontWeight ≤ y.fontWeight

def styleLe (x y : StyleDef) : Prop := styleLeB x y = true

instance : DecidableRel styleLe := fun _ _ => inferInstanceAs (Decidable (_ = true))

/-- sorted(text_styles, key=...) of save_text_styles_dart (identical in
both scripts): the stable sort by (fontSize, color, fontWeight). -/
def sorted_styles (text_styles : List StyleDef) : List StyleDef :=
  List.insertionSort styleLe text_styles

namespace Main

/-- One style declaration block of save_text_styles_dart in main.py. -/
def dart_style_block (e : StyleDef) : String :=
  "  static final " ++ e.name ++ " = TextStyle(\n    fontFamily: \"" ++ e.fontFamily
  ++ "\",\n    color: AppColors.c" ++ e.color ++ ",\n    fontSize: " ++ intStr e.fontSize
  ++ ".sp,\n    fontWeight: FontWeight.w" ++ intStr e.fontWeight ++ ",\n  );\n\n"

/-- save_text_styles_dart of main.py, modelled as the produced file
content. -/
def save_text_styles_dart (text_styles : List StyleDef) : String :=
  (sorted_styles text_styles).foldl (fun acc e => acc ++ dart_style_block e)
    ("import \x27package:flutter/material.dart\x27;\nimport \x27package:flutter_screenutil/flutter_screenutil.dart\x27;\nimport \x27package:screnzo85_app/gen/colors.gen.dart\x27;\n\nclass TextFontStyle \x7b\n  TextFontStyle._();\n\n")
  ++ "\x7d\n"

/-- The HTTP response of the whole-file fetch of main.py: a status code
and, on success, a body whose top-level document field may be absent
(reading figma_data["document"] then raises). -/
structure FileResp where
  status : ℕ
  document : Option Node

/-- process_figma_file of main.py, modelled as the list of (path, content)
files it writes: empty when the fetch fails, when the document field is
missing, or when the walk raises; both files on success. -/
def process_figma_file (resp : FileResp) : List (String × String) :=
  if resp.status ≠ 200 then []
  else
    match resp.document with
    | none => []
    | some doc =>
      match parse_node doc initState with
      | .error _ => []
      | .ok st => [(COLORS_OUTPUT, save_colors_xml st.colors),
                   (TEXTSTYLES_OUTPUT, save_text_styles_dart st.text_styles)]

end Main

namespace ById

/-- One entry of the nodes mapping of a node-scoped response: the document
subtree (possibly absent) plus whether the entry object has any other
keys, which is what Python truthiness of the entry dict observes. -/
structure NodeEntry where
  document : Option Node
  extra : Bool

/-- Python truthiness of a node-entry dict: nonempty. -/
def truthyEntry (e : NodeEntry) : Bool := e.document.isSome || e.extra

/-- The fallback of process_figma_file when nodes_map.get(NODE_ID) is not
truthy: a single-entry mapping supplies its value, anything else is the
node-not-found error listing all available keys. -/
def resolve_fallback : List (String × NodeEntry) → Except (List String) NodeEntry
  | [] => .error []
  | [p] => .ok p.2
  | p :: q :: rest => .error ((p :: q :: rest).map Prod.fst)

/-- Target-node resolution of process_figma_file in the by-id script:
nodes_map.get(NODE_ID), falling back (also when the stored entry is
falsy) to resolve_fallback. -/
def resolve_target (nodes_map : List (String × NodeEntry)) (node_id : String) :
    Except (List String) NodeEntry :=
  match lookupA nodes_map node_id with
  | some d => if truthyEntry d then .ok d else resolve_fallback nodes_map
  | none => resolve_fallback nodes_map

/-- One style declaration block of save_text_styles_dart in the by-id
script (adds the fontFamilyFallback line). -/
def dart_style_block (e : StyleDef) : String :=
  "  static final " ++ e.name ++ " = TextStyle(\n    fontFamily: \"" ++ e.fontFamily
  ++ "\",\n    fontFamilyFallback: fallbackFonts,\n    color: AppColors.c" ++ e.color
  ++ ",\n    fontSize: " ++ intStr e.fontSize ++ ".sp,\n    fontWeight: FontWeight.w"
  ++ intStr e.fontWeight ++ ",\n  );\n\n"

/-- save_text_styles_dart of the by-id script, modelled as the produced
file content (with the static fallback-font block). -/
def save_text_styles_dart (text_styles : List StyleDef) : String :=
  (sorted_styles text_styles).foldl (fun acc e => acc ++ dart_style_block e)
    (("import \x27package:flutter/material.dart\x27;\nimport \x27package:flutter_screenutil/flutter_screenutil.dart\x27;\nimport \x27package:your_app_name/gen/colors.gen.dart\x27;\n\nclass TextFontStyle \x7b\n  TextFontStyle._();\n\n  // Fallback Fonts\n  static const fallbackFonts = [\n"
      ++ FALLBACK_FONTS.foldl (fun acc f => acc ++ "    \x27" ++ f ++ "\x27,\n") ""
      ++ "  ];\n\n"))
  ++ "\x7d\n"

/-- The HTTP response of the node-scoped fetch: a status code and the
nodes mapping of the body. -/
structure ByIdResp where
  status : ℕ
  nodes : List (String × NodeEntry)

/-- process_figma_file of the by-id script, modelled as the list of
(path, content) files it writes: empty when the fetch fails, when the
requested node cannot be resolved, when the resolved entry has no
document field, or when the walk raises; both files on success.  The
requested node identifier (the NODE_ID configuration constant in the
source) is passed as a parameter. -/
def process_figma_file (resp : ByIdResp) (node_id : String) : List (String × String) :=
  if resp.status ≠ 200 then []
  else
    match resolve_target resp.nodes node_id with
    | .error _ => []
    | .ok entry =>
      match entry.document with
      | none => []
      | some root =>
        match parse_node root initState with
        | .error _ => []
        | .ok st => [(COLORS_OUTPUT, save_colors_xml st.colors),
                     (TEXTSTYLES_OUTPUT, save_text_styles_dart st.text_styles)]

end ById

/-! Specification-level views of the walker, used to state and prove the
claims: the pre-order list of color pairs a tree contributes, the
pre-order list of style definitions its TEXT nodes contribute, and the
first-occurrence deduplication these feed. -/

/-- The uniqueness key of a style definition, as parse_node computes it
from the extracted tuple. -/
def keyOf (e : StyleDef) : String :=
  style_key e.fontSize e.color e.fontWeight (re_sub_nonword e.fontFamily)

/-- The (name, value) color pairs contributed by one fills list, in order:
one pair per solid fill that carries a color. -/
def solid_pairs (fills : List Fill) : List (String × String) :=
  fills.filterMap fun f =>
    if f.type = some "SOLID" then
      f.color.map fun c => ("c" ++ rgb_to_hex c.r c.g c.b, "#" ++ rgb_to_hex c.r c.g c.b)
    else none

mutual

/-- All color pairs of a tree in pre-order traversal order. -/
def colorPairs : Node → List (String × String)
  | Node.mk _ fills _ children => solid_pairs fills ++ colorPairsList children

/-- All color pairs of a forest, left to right. -/
def colorPairsList : List Node → List (String × String)
  | [] => []
  | n :: rest => colorPairs n ++ colorPairsList rest

end

/-- Folding a pair list into a dict with Python assignment semantics. -/
def foldIns (d : List (String × String)) (ps : List (String × String)) : List (String × String) :=
  ps.foldl (fun d p => dictInsert d p.1 p.2) d

namespace Main

/-- The style definition parse_node of main.py builds for one node
(before the uniqueness check). -/
def entry_of (node : Node) : StyleDef :=
  match parse_text_style node with
  | (fontFamily, fontWeight, fontSize, color) =>
    ⟨style_name fontSize color fontWeight (re_sub_nonword fontFamily),
     fontFamily, color, fontSize, fontWeight⟩

mutual

/-- The style definitions of all TEXT nodes of a tree, in pre-order
traversal order, without deduplication. -/
def entriesOf : Node → List StyleDef
  | Node.mk ty fills style children =>
    (if ty = some "TEXT" then [entry_of (Node.mk ty fills style children)] else [])
      ++ entriesOfList children

/-- The style definitions of all TEXT nodes of a forest, left to right. -/
def entriesOfList : List Node → List StyleDef
  | [] => []
  | n :: rest => entriesOf n ++ entriesOfList rest

end

end Main

/-- First-occurrence deduplication by uniqueness key, relative to a set of
already-seen keys: exactly the effect of the unique_styles check of
parse_node on a stream of style definitions. -/
def dedupKeep : List String → List StyleDef → List StyleDef
  | _, [] => []
  | seen, e :: es =>
    if keyOf e ∈ seen then dedupKeep seen es
    else e :: dedupKeep (keyOf e :: seen) es

/-- The value stored under a color name: the name with its leading c
replaced by #.  Every pair the walker inserts satisfies
value = color_value_of_name name. -/
def color_value_of_name (k : String) : String := "#" ++ String.mk (k.data.drop 1)

/-- The three state components evolve from st to st' by appending the
color pairs ps and the style stream es: exactly what one walker call
does with ps and es read off the subtree it processed. -/
def StStep (st st' : WalkState) (ps : List (String × String)) (es : List StyleDef) : Prop :=
  st'.colors = foldIns st.colors ps ∧
  st'.text_styles = st.text_styles ++ dedupKeep st.unique_styles es ∧
  (∀ k, k ∈ st'.unique_styles ↔ (k ∈ st.unique_styles ∨ k ∈ es.map keyOf))

/-- One sibling permutation applied somewhere in a tree: either the
children list of the root is permuted, or the step happens inside one
child. -/
inductive PermStep : Node → Node → Prop where
  | here (ty : Option String) (fills : List Fill) (style : Option TextStyleProps)
      {cs cs' : List Node} (h : cs.Perm cs') :
      PermStep (Node.mk ty fills style cs) (Node.mk ty fills style cs')
  | child (ty : Option String) (fills : List Fill) (style : Option TextStyleProps)
      (pre post : List Node) {c c' : Node} (h : PermStep c c') :
      PermStep (Node.mk ty fills style (pre ++ c :: post)) (Node.mk ty fills style (pre ++ c' :: post))

/-- Two trees that differ only by permutations of sibling order (children
lists) anywhere in the tree. -/
def SimTree : Node → Node → Prop := Relation.ReflTransGen PermStep

/-- Whether a style definition matches an extracted tuple
(fontSize, color, fontWeight, sanitized font name). -/
def tupleMatchB (s : ℤ) (c : String) (w : ℤ) (f : String) (e : StyleDef) : Bool :=
  (e.fontSize == s) && (e.color == c) && (e.fontWeight == w) && (re_sub_nonword e.fontFamily == f)

/-- Value 0..15 of an uppercase hexadecimal digit character. -/
def hexCharVal (c : Char) : ℕ :=
  if c = '0' then 0 else if c = '1' then 1 else if c = '2' then 2 else if c = '3' then 3
  else if c = '4' then 4 else if c = '5' then 5 else if c = '6' then 6 else if c = '7' then 7
  else if c = '8' then 8 else if c = '9' then 9 else if c = 'A' then 10 else if c = 'B' then 11
  else if c = 'C' then 12 else if c = 'D' then 13 else if c = 'E' then 14 else if c = 'F' then 15
  else 0

/-- Uppercase hexadecimal digit characters 0-9, A-F. -/
def isUpperHexChar (c : Char) : Bool := c.isDigit || (65 ≤ c.toNat && c.toNat ≤ 70)

/-- Value of a big-endian string of hexadecimal digits. -/
def hexVal (l : List Char) : ℕ := l.foldl (fun a c => 16 * a + hexCharVal c) 0

/-- Value 0..9 of a decimal digit character. -/
def decCharVal (c : Char) : ℕ :=
  if c = '0' then 0 else if c = '1' then 1 else if c = '2' then 2 else if c = '3' then 3
  else if c = '4' then 4 else if c = '5' then 5 else if c = '6' then 6 else if c = '7' then 7
  else if c = '8' then 8 else if c = '9' then 9 else 0

/-- Value of a big-endian string of decimal digits. -/
def decVal (l : List Char) : ℕ := l.foldl (fun a c => 10 * a + decCharVal c) 0

/-- A list whose first character, if any, is not a decimal digit. -/
def headNotDigit (l : List Char) : Prop := ∀ c, l.head? = some c → c.isDigit = false

/-- Strict version of the color-items comparison: strictly smaller key. -/
def pairKeyLt (p q : String × String) : Prop := strLtB p.1.data q.1.data = true

/-- Strict lexicographic order on the (fontSize, color, fontWeight) sort
key of a style definition. -/
def styleLtB (x y : StyleDef) : Bool :=
  if x.fontSize < y.fontSize then true
  else if y.fontSize < x.fontSize then false
  else if strLtB x.color.data y.color.data then true
  else if strLtB y.color.data x.color.data then false
  else x.fontWeight < y.fontWeight

def styleLt (x y : StyleDef) : Prop := styleLtB x y = true

instance : DecidableRel styleLt := fun _ _ => inferInstanceAs (Decidable (_ = true))

instance : DecidableRel pairKeyLt := fun _ _ => inferInstanceAs (Decidable (_ = true))

/-! Concrete inputs used by the end-to-end, counterexample and witness
theorems. -/

/-- The synthetic tree of the end-to-end scenario: a document whose
children are a red rectangle and a black Roboto 700 16 text node. -/
def c1tree : Node :=
  Node.mk none [] none
    [ Node.mk (some "RECTANGLE") [⟨some "SOLID", some ⟨1, 0, 0⟩⟩] none [],
      Node.mk (some "TEXT") [⟨some "SOLID", some ⟨0, 0, 0⟩⟩]
        (some ⟨some "Roboto", some 700, some 16⟩) [] ]

/-- Expected final state of the walk over c1tree. -/
def c1state : WalkState :=
  ⟨[("cFF0000", "#FF0000"), ("c000000", "#000000")],
   [⟨"text16c000000w700Roboto", "Roboto", "000000", 16, 700⟩],
   ["16_000000_700_Roboto"]⟩

/-- Two text nodes whose names collide although their uniqueness keys
differ: weight 4 with sanitized font name 2abc versus weight 42 with
sanitized font name abc. -/
def c2tree : Node :=
  Node.mk none [] none
    [ Node.mk (some "TEXT") [] (some ⟨some "2abc", some 4, some 12⟩) [],
      Node.mk (some "TEXT") [] (some ⟨some "abc", some 42, some 12⟩) [] ]

/-- Expected final state of the walk over c2tree. -/
def c2state : WalkState :=
  ⟨[],
   [⟨"text12c000000w42abc", "2abc", "000000", 12, 4⟩,
    ⟨"text12c000000w42abc", "abc", "000000", 12, 42⟩],
   ["12_000000_42_abc", "12_000000_4_2abc"]⟩

/-- Two text styles sharing (fontSize, color, fontWeight) and differing
only in the font name: both survive deduplication and tie under the
output sort key. -/
def c3tree : Node :=
  Node.mk none [] none
    [ Node.mk (some "TEXT") [] (some ⟨some "Arial", some 400, some 12⟩) [],
      Node.mk (some "TEXT") [] (some ⟨some "Verdana", some 400, some 12⟩) [] ]

/-- Expected final state of the walk over c3tree. -/
def c3state : WalkState :=
  ⟨[],
   [⟨"text12c000000w400Arial", "Arial", "000000", 12, 400⟩,
    ⟨"text12c000000w400Verdana", "Verdana", "000000", 12, 400⟩],
   ["12_000000_400_Verdana", "12_000000_400_Arial"]⟩

/-- A TEXT node with no style field and no fills: parsing it raises
KeyError on node['style'] and falls back. -/
def c5node : Node := Node.mk (some "TEXT") [] none []

/-- A document containing the fallback TEXT node twice. -/
def c5tree : Node := Node.mk none [] none [c5node, c5node]

/-- Expected final state of the walk over c5tree: one fallback entry. -/
def c5state : WalkState :=
  ⟨[],
   [⟨"text14c000000w400FontNotFound", "FontNotFound", "000000", 14, 400⟩],
   ["14_000000_400_FontNotFound"]⟩

/-- Two rectangles with distinct solid fills, used by the
order-independence witness. -/
def c9rect1 : Node := Node.mk (some "RECTANGLE") [⟨some "SOLID", some ⟨1, 0, 0⟩⟩] none []

def c9rect2 : Node := Node.mk (some "RECTANGLE") [⟨some "SOLID", some ⟨0, 0, 0⟩⟩] none []

def c9tree : Node := Node.mk none [] none [c9rect1, c9rect2]

/-- c9tree with its two children swapped. -/
def c9tree' : Node := Node.mk none [] none [c9rect2, c9rect1]

/-- Two text nodes whose font families differ but sanitize to the same
token, so they share a uniqueness key: first-occurrence wins. -/
def c10tree : Node :=
  Node.mk none [] none
    [ Node.mk (some "TEXT") [] (some ⟨some "Open Sans", some 400, some 12⟩) [],
      Node.mk (some "TEXT") [] (some ⟨some "OpenSans", some 400, some 12⟩) [] ]

/-- Expected final state of the walk over c10tree: only the first of the
two key-equal entries is kept. -/
def c10state : WalkState :=
  ⟨[],
   [⟨"text12c000000w400OpenSans", "Open Sans", "000000", 12, 400⟩],
   ["12_000000_400_OpenSans"]⟩

/-- A two-entry nodes mapping not containing the requested identifier. -/
def c6map : List (String × ById.NodeEntry) :=
  [("10:1", ⟨none, true⟩), ("10:2", ⟨none, true⟩)]

/-! Lemmas about the decimal rendering used by the f-strings. -/

theorem string_data_inj {a b : String} (h : a.data = b.data) : a = b :=
  congrArg String.mk h

theorem decDigitChar_isDigit (n : ℕ) : (decDigitChar n).isDigit = true := by
  unfold decDigitChar
  repeat' split
  all_goals decide

theorem decCharVal_decDigitChar : ∀ n : ℕ, n < 10 → decCharVal (decDigitChar n) = n := by
  decide

theorem decVal_append (l : List Char) (c : Char) :
    decVal (l ++ [c]) = 10 * decVal l + decCharVal c := by
  unfold decVal
  rw [List.foldl_append]
  rfl

theorem natDecRev_spec : ∀ fuel n : ℕ, n < fuel →
    natDecRev fuel n ≠ [] ∧ (∀ c ∈ natDecRev fuel n, c.isDigit = true) ∧
      decVal (natDecRev fuel n) = n := by
  intro fuel
  induction fuel with
  | zero => intro n h; omega
  | succ f ih =>
    intro n h
    rw [natDecRev]
    by_cases h10 : n < 10
    · simp only [if_pos h10]
      refine ⟨by simp, ?_, ?_⟩
      · intro c hc
        simp only [List.mem_singleton] at hc
        subst hc
        exact decDigitChar_isDigit n
      · simpa [decVal] using decCharVal_decDigitChar n h10
    · simp only [if_neg h10]
      have hlt : n / 10 < f := by omega
      obtain ⟨hne, hdig, hval⟩ := ih (n / 10) hlt
      refine ⟨by simp, ?_, ?_⟩
      · intro c hc
        rcases List.mem_append.1 hc with h1 | h2
        · exact hdig c h1
        · simp only [List.mem_singleton] at h2
          subst h2
          exact decDigitChar_isDigit _
      · rw [decVal_append, hval, decCharVal_decDigitChar (n % 10) (by omega)]
        omega

theorem natToDec_ne_nil (n : ℕ) : natToDec n ≠ [] :=
  (natDecRev_spec (n + 1) n (by omega)).1

theorem natToDec_digits (n : ℕ) : ∀ c ∈ natToDec n, c.isDigit = true :=
  (natDecRev_spec (n + 1) n (by omega)).2.1

theorem decVal_natToDec (n : ℕ) : decVal (natToDec n) = n :=
  (natDecRev_spec (n + 1) n (by omega)).2.2

theorem natToDec_inj {m n : ℕ} (h : natToDec m = natToDec n) : m = n := by
  have hm := decVal_natToDec m
  rw [h, decVal_natToDec] at hm
  omega

theorem intStr_data_neg {i : ℤ} (h : i < 0) : (intStr i).data = '-' :: natToDec i.natAbs := by
  unfold intStr
  rw [if_pos h]

theorem intStr_data_nonneg {i : ℤ} (h : 0 ≤ i) : (intStr i).data = natToDec i.toNat := by
  unfold intStr
  rw [if_neg (by omega)]

theorem intStr_chars (i : ℤ) : ∀ c ∈ (intStr i).data, c.isDigit = true ∨ c = '-' := by
  intro c hc
  by_cases h : i < 0
  · rw [intStr_data_neg h] at hc
    rcases List.mem_cons.mp hc with rfl | hc'
    · exact Or.inr rfl
    · exact Or.inl (natToDec_digits _ c hc')
  · rw [intStr_data_nonneg (by omega)] at hc
    exact Or.inl (natToDec_digits _ c hc)

theorem intStr_not_mem (i : ℤ) {ch : Char} (h1 : ch.isDigit = false) (h2 : ch ≠ '-') :
    ch ∉ (intStr i).data := by
  intro hmem
  rcases intStr_chars i ch hmem with hd | hd
  · rw [h1] at hd
    cases hd
  · exact h2 hd

theorem intStr_data_inj {i j : ℤ} (h : (intStr i).data = (intStr j).data) : i = j := by
  by_cases hi : i < 0 <;> by_cases hj : j < 0
  · rw [intStr_data_neg hi, intStr_data_neg hj] at h
    have := natToDec_inj (List.cons.injEq _ _ _ _ ▸ h).2
    omega
  · rw [intStr_data_neg hi, intStr_data_nonneg (by omega)] at h
    have : ('-' : Char).isDigit = true := natToDec_digits j.toNat '-' (h ▸ List.mem_cons_self _ _)
    cases this
  · rw [intStr_data_nonneg (by omega), intStr_data_neg hj] at h
    have : ('-' : Char).isDigit = true := natToDec_digits i.toNat '-' (h ▸ List.mem_cons_self _ _)
    cases this
  · rw [intStr_data_nonneg (by omega), intStr_data_nonneg (by omega)] at h
    have := natToDec_inj h
    omega

/-! Splitting concatenations back into their fields. -/

theorem sep_split {sep : Char} : ∀ a1 a2 r1 r2 : List Char,
    a1 ++ sep :: r1 = a2 ++ sep :: r2 → sep ∉ a1 → sep ∉ a2 → a1 = a2 ∧ r1 = r2 := by
  intro a1
  induction a1 with
  | nil =>
    intro a2 r1 r2 h hn1 hn2
    cases a2 with
    | nil => simpa using h
    | cons b bs =>
      simp only [List.nil_append, List.cons_append, List.cons.injEq] at h
      exact absurd (h.1 ▸ List.mem_cons_self b bs) hn2
  | cons a as ih =>
    intro a2 r1 r2 h hn1 hn2
    cases a2 with
    | nil =>
      simp only [List.nil_append, List.cons_append, List.cons.injEq] at h
      exact absurd (h.1 ▸ List.mem_cons_self a as) hn1
    | cons b bs =>
      simp only [List.cons_append, List.cons.injEq] at h
      obtain ⟨rfl, h2⟩ := h
      obtain ⟨hd, hr⟩ := ih bs r1 r2 h2 (fun hm => hn1 (List.mem_cons_of_mem _ hm))
        (fun hm => hn2 (List.mem_cons_of_mem _ hm))
      exact ⟨by rw [hd], hr⟩

theorem digit_prefix_split : ∀ d1 d2 r1 r2 : List Char,
    d1 ++ r1 = d2 ++ r2 → (∀ c ∈ d1, c.isDigit = true) → (∀ c ∈ d2, c.isDigit = true) →
    headNotDigit r1 → headNotDigit r2 → d1 = d2 ∧ r1 = r2 := by
  intro d1
  induction d1 with
  | nil =>
    intro d2 r1 r2 h hd1 hd2 hr1 hr2
    cases d2 with
    | nil => simpa using h
    | cons b bs =>
      simp only [List.nil_append] at h
      exfalso
      have hb : b.isDigit = true := hd2 b (List.mem_cons_self b bs)
      have hb' : b.isDigit = false := hr1 b (by rw [h]; rfl)
      rw [hb'] at hb
      cases hb
  | cons a as ih =>
    intro d2 r1 r2 h hd1 hd2 hr1 hr2
    cases d2 with
    | nil =>
      simp only [List.nil_append] at h
      exfalso
      have ha : a.isDigit = true := hd1 a (List.mem_cons_self a as)
      have ha' : a.isDigit = false := hr2 a (by rw [← h]; rfl)
      rw [ha'] at ha
      cases ha
    | cons b bs =>
      simp only [List.cons_append, List.cons.injEq] at h
      obtain ⟨rfl, h2⟩ := h
      obtain ⟨hd, hr⟩ := ih bs r1 r2 h2 (fun c hc => hd1 c (List.mem_cons_of_mem _ hc))
        (fun c hc => hd2 c (List.mem_cons_of_mem _ hc)) hr1 hr2
      exact ⟨by rw [hd], hr⟩

theorem intStr_append_cancel {w1 w2 : ℤ} {f1 f2 : List Char}
    (hf1 : headNotDigit f1) (hf2 : headNotDigit f2)
    (h : (intStr w1).data ++ f1 = (intStr w2).data ++ f2) :
    w1 = w2 ∧ f1 = f2 := by
  by_cases h1 : w1 < 0 <;> by_cases h2 : w2 < 0
  · rw [intStr_data_neg h1, intStr_data_neg h2] at h
    simp only [List.cons_append, List.cons.injEq, true_and] at h
    obtain ⟨hd, hf⟩ := digit_prefix_split _ _ _ _ h (natToDec_digits _) (natToDec_digits _) hf1 hf2
    have := natToDec_inj hd
    exact ⟨by omega, hf⟩
  · rw [intStr_data_neg h1, intStr_data_nonneg (by omega)] at h
    obtain ⟨c, cs, hc⟩ := List.exists_cons_of_ne_nil (natToDec_ne_nil w2.toNat)
    rw [hc] at h
    simp only [List.cons_append, List.cons.injEq] at h
    have : ('-' : Char).isDigit = true := by
      have := natToDec_digits w2.toNat c (hc ▸ List.mem_cons_self c cs)
      rwa [← h.1] at this
    cases this
  · rw [intStr_data_nonneg (by omega), intStr_data_neg h2] at h
    obtain ⟨c, cs, hc⟩ := List.exists_cons_of_ne_nil (natToDec_ne_nil w1.toNat)
    rw [hc] at h
    simp only [List.cons_append, List.cons.injEq] at h
    have : ('-' : Char).isDigit = true := by
      have := natToDec_digits w1.toNat c (hc ▸ List.mem_cons_self c cs)
      rwa [h.1] at this
    cases this
  · rw [intStr_data_nonneg (by omega), intStr_data_nonneg (by omega)] at h
    obtain ⟨hd, hf⟩ := digit_prefix_split _ _ _ _ h (natToDec_digits _) (natToDec_digits _) hf1 hf2
    have := natToDec_inj hd
    exact ⟨by omega, hf⟩

/-! Injectivity of the uniqueness key and of the main.py style name. -/

theorem style_key_data (s : ℤ) (c : String) (w : ℤ) (f : String) :
    (style_key s c w f).data =
      (intStr s).data ++ '_' :: (c.data ++ '_' :: ((intStr w).data ++ '_' :: f.data)) := by
  have hu : ("_" : String).data = ['_'] := rfl
  simp only [style_key, String.data_append, hu, List.append_assoc, List.singleton_append,
    List.cons_append, List.nil_append]

theorem style_name_data (s : ℤ) (c : String) (w : ℤ) (f : String) :
    (Main.style_name s c w f).data =
      't' :: 'e' :: 'x' :: 't' ::
        ((intStr s).data ++ 'c' :: (c.data ++ 'w' :: ((intStr w).data ++ f.data))) := by
  have ht : ("text" : String).data = 't' :: 'e' :: 'x' :: 't' :: [] := rfl
  have hc : ("c" : String).data = ['c'] := rfl
  have hw : ("w" : String).data = ['w'] := rfl
  simp only [Main.style_name, String.data_append, ht, hc, hw, List.append_assoc,
    List.singleton_append, List.cons_append, List.nil_append]

theorem style_key_inj {s1 s2 w1 w2 : ℤ} {c1 c2 f1 f2 : String}
    (hc1 : '_' ∉ c1.data) (hc2 : '_' ∉ c2.data)
    (h : style_key s1 c1 w1 f1 = style_key s2 c2 w2 f2) :
    s1 = s2 ∧ c1 = c2 ∧ w1 = w2 ∧ f1 = f2 := by
  have hd := congrArg String.data h
  rw [style_key_data, style_key_data] at hd
  obtain ⟨hs, hrest⟩ := sep_split _ _ _ _ hd
    (intStr_not_mem _ (by decide) (by decide)) (intStr_not_mem _ (by decide) (by decide))
  obtain ⟨hc, hrest2⟩ := sep_split _ _ _ _ hrest hc1 hc2
  obtain ⟨hw, hf⟩ := sep_split _ _ _ _ hrest2
    (intStr_not_mem _ (by decide) (by decide)) (intStr_not_mem _ (by decide) (by decide))
  exact ⟨intStr_data_inj hs, string_data_inj hc, intStr_data_inj hw, string_data_inj hf⟩

theorem style_name_inj_main {s1 s2 w1 w2 : ℤ} {c1 c2 f1 f2 : String}
    (hlen1 : c1.data.length = 6) (hlen2 : c2.data.length = 6)
    (hf1 : headNotDigit f1.data) (hf2 : headNotDigit f2.data)
    (h : Main.style_name s1 c1 w1 f1 = Main.style_name s2 c2 w2 f2) :
    s1 = s2 ∧ c1 = c2 ∧ w1 = w2 ∧ f1 = f2 := by
  have hd := congrArg String.data h
  rw [style_name_data, style_name_data] at hd
  simp only [List.cons.injEq, true_and] at hd
  obtain ⟨hs, hrest⟩ := sep_split _ _ _ _ hd
    (intStr_not_mem _ (by decide) (by decide)) (intStr_not_mem _ (by decide) (by decide))
  obtain ⟨hcd, hrest2⟩ := List.append_inj hrest (by rw [hlen1, hlen2])
  have hrest3 : (intStr w1).data ++ f1.data = (intStr w2).data ++ f2.data := by
    simpa using hrest2
  obtain ⟨hw, hfd⟩ := intStr_append_cancel hf1 hf2 hrest3
  exact ⟨intStr_data_inj hs, string_data_inj hcd, hw, string_data_inj hfd⟩

/-! Order properties of the code-point string comparison. -/

theorem char_toNat_inj {a b : Char} (h : a.toNat = b.toNat) : a = b :=
  Char.eq_of_val_eq (UInt32.ext h)

theorem strLtB_connex : ∀ l m : List Char, strLtB l m = false → strLtB m l = false → l = m := by
  intro l
  induction l with
  | nil =>
    intro m h1 _
    cases m with
    | nil => rfl
    | cons b bs => rw [strLtB] at h1; cases h1
  | cons a as ih =>
    intro m h1 h2
    cases m with
    | nil => rw [strLtB] at h2; cases h2
    | cons b bs =>
      rw [strLtB] at h1 h2
      by_cases hab : a.toNat < b.toNat
      · rw [if_pos hab] at h1; cases h1
      · by_cases hba : b.toNat < a.toNat
        · rw [if_pos hba] at h2; cases h2
        · rw [if_neg hab, if_neg hba] at h1
          rw [if_neg hba, if_neg hab] at h2
          have hc : a = b := char_toNat_inj (by omega)
          rw [hc, ih bs h1 h2]

theorem strLtB_trans : ∀ l m n : List Char,
    strLtB l m = true → strLtB m n = true → strLtB l n = true := by
  intro l
  induction l with
  | nil =>
    intro m n h1 h2
    cases m with
    | nil => cases h1
    | cons b bs =>
      cases n with
      | nil => cases h2
      | cons c cs => rfl
  | cons a as ih =>
    intro m n h1 h2
    cases m with
    | nil => cases h1
    | cons b bs =>
      cases n with
      | nil => cases h2
      | cons c cs =>
        rw [strLtB] at h1 h2 ⊢
        by_cases hab : a.toNat < b.toNat <;> by_cases hbc : b.toNat < c.toNat
        · rw [if_pos (by omega)]
        · rw [if_neg hbc] at h2
          by_cases hcb : c.toNat < b.toNat
          · rw [if_pos hcb] at h2; cases h2
          · rw [if_pos (by omega)]
        · rw [if_neg hab] at h1
          by_cases hba : b.toNat < a.toNat
          · rw [if_pos hba] at h1; cases h1
          · rw [if_pos (by omega)]
        · rw [if_neg hab] at h1
          by_cases hba : b.toNat < a.toNat
          · rw [if_pos hba] at h1; cases h1
          · rw [if_neg hbc] at h2
            by_cases hcb : c.toNat < b.toNat
            · rw [if_pos hcb] at h2; cases h2
            · rw [if_neg hba] at h1
              rw [if_neg hcb] at h2
              rw [if_neg (by omega), if_neg (by omega)]
              exact ih bs cs h1 h2

theorem strLtB_irrefl : ∀ l : List Char, strLtB l l = false := by
  intro l
  induction l with
  | nil => rfl
  | cons a as ih =>
    rw [strLtB, if_neg (lt_irrefl _), if_neg (lt_irrefl _)]
    exact ih

theorem strLtB_asymm {l m : List Char} (h : strLtB l m = true) : strLtB m l = false := by
  by_contra hc
  rw [Bool.not_eq_false] at hc
  have hll := strLtB_trans l m l h hc
  rw [strLtB_irrefl l] at hll
  cases hll

/-! Rounding. -/

theorem pyRound_spec (q : ℚ) :
    pyRound q = ⌊q⌋ ∧ q - ⌊q⌋ ≤ 1/2 ∨ pyRound q = ⌊q⌋ + 1 ∧ 1/2 ≤ q - ⌊q⌋ := by
  unfold pyRound
  split_ifs with hA hB hC
  · exact Or.inl ⟨rfl, le_of_lt hA⟩
  · exact Or.inr ⟨rfl, le_of_lt hB⟩
  · exact Or.inl ⟨rfl, by push_neg at hB; exact hB⟩
  · exact Or.inr ⟨rfl, by push_neg at hA; exact hA⟩

theorem pyRound_abs (q : ℚ) : |(pyRound q : ℚ) - q| ≤ 1/2 := by
  have hf1 := Int.floor_le q
  have hf2 := Int.lt_floor_add_one q
  rcases pyRound_spec q with ⟨he, hh⟩ | ⟨he, hh⟩ <;>
    rw [he, abs_le] <;> constructor <;> push_cast <;> linarith

theorem pyRound_bounds {q : ℚ} (h0 : 0 ≤ q) (h1 : q ≤ 255) :
    0 ≤ pyRound q ∧ pyRound q ≤ 255 := by
  have hf1 := Int.floor_le q
  have hge : (0:ℤ) ≤ ⌊q⌋ := Int.le_floor.mpr (by exact_mod_cast h0)
  have hle : ⌊q⌋ ≤ 255 := by
    have h' : (⌊q⌋ : ℚ) ≤ 255 := le_trans hf1 h1
    exact_mod_cast h'
  rcases pyRound_spec q with ⟨he, hh⟩ | ⟨he, hh⟩
  · rw [he]; exact ⟨hge, hle⟩
  · rw [he]
    refine ⟨by omega, ?_⟩
    by_contra hcon
    push_neg at hcon
    have h255 : (255:ℤ) ≤ ⌊q⌋ := by omega
    have h255' : (255 : ℚ) ≤ (⌊q⌋ : ℚ) := by exact_mod_cast h255
    linarith

/-! Character classes of the hexadecimal rendering. -/

theorem hexDigitChar_upperHex (n : ℕ) : isUpperHexChar (hexDigitChar n) = true := by
  unfold hexDigitChar
  split <;> decide

theorem natHexRev_chars : ∀ fuel n : ℕ, ∀ c ∈ natHexRev fuel n, isUpperHexChar c = true := by
  intro fuel
  induction fuel with
  | zero => intro n c hc; cases hc
  | succ f ih =>
    intro n c hc
    rw [natHexRev] at hc
    by_cases h16 : n < 16
    · rw [if_pos h16] at hc
      simp only [List.mem_singleton] at hc
      subst hc
      exact hexDigitChar_upperHex n
    · rw [if_neg h16] at hc
      rcases List.mem_append.1 hc with h1 | h2
      · exact ih _ c h1
      · simp only [List.mem_singleton] at h2
        subst h2
        exact hexDigitChar_upperHex _

theorem formatHex2_chars (i : ℤ) : ∀ c ∈ (formatHex2 i).data, isUpperHexChar c = true ∨ c = '-' := by
  intro c hc
  unfold formatHex2 at hc
  by_cases hi : i < 0
  · rw [if_pos hi] at hc
    rcases List.mem_cons.mp hc with rfl | hc'
    · exact Or.inr rfl
    · exact Or.inl (natHexRev_chars _ _ c hc')
  · rw [if_neg hi] at hc
    unfold leftPad2 at hc
    by_cases hl : (natToHex i.toNat).length < 2
    · rw [if_pos hl] at hc
      rcases List.mem_cons.mp hc with rfl | hc'
      · exact Or.inl (by decide)
      · exact Or.inl (natHexRev_chars _ _ c hc')
    · rw [if_neg hl] at hc
      exact Or.inl (natHexRev_chars _ _ c hc)

theorem rgba_to_hex_no_underscore (x : RGBA) : '_' ∉ (rgba_to_hex x).data := by
  intro hmem
  unfold rgba_to_hex at hmem
  simp only [String.data_append, List.mem_append] at hmem
  rcases hmem with (h | h) | h <;>
    rcases formatHex2_chars _ _ h with hx | hx <;> cases hx

theorem parse_text_style_try_color (n : Node) (ff : String) (fw fs : ℤ) (c : String)
    (h : parse_text_style_try n = .ok (ff, fw, fs, c)) :
    c = "000000" ∨ ∃ x : RGBA, c = rgba_to_hex x := by
  simp only [parse_text_style_try] at h
  split at h
  · cases h
  · split at h
    · simp only [Except.ok.injEq, Prod.mk.injEq] at h
      exact Or.inl h.2.2.2.symm
    · split at h
      · cases h
      · simp only [Except.ok.injEq, Prod.mk.injEq] at h
        exact Or.inl h.2.2.2.symm
      · split at h
        · cases h
        · simp only [Except.ok.injEq, Prod.mk.injEq] at h
          exact Or.inr ⟨_, h.2.2.2.symm⟩

theorem parse_text_style_color_clean (n : Node) : '_' ∉ (parse_text_style n).2.2.2.data := by
  unfold parse_text_style
  split
  · next t h =>
    rcases t with ⟨ff, fw, fs, c⟩
    rcases parse_text_style_try_color n ff fw fs c h with rfl | ⟨x, rfl⟩
    · exact (by decide : '_' ∉ ("000000" : String).data)
    · exact rgba_to_hex_no_underscore x
  · exact (by decide : '_' ∉ ("000000" : String).data)

theorem entry_of_color (n : Node) : (Main.entry_of n).color = (parse_text_style n).2.2.2 := by
  unfold Main.entry_of
  rcases h : parse_text_style n with ⟨ff, fw, fs, c⟩
  rfl

mutual

theorem entriesOf_color_clean (n : Node) : ∀ e ∈ Main.entriesOf n, '_' ∉ e.color.data := by
  match n with
  | Node.mk ty fills style children =>
    intro e he
    rw [Main.entriesOf] at he
    rcases List.mem_append.1 he with h1 | h2
    · by_cases ht : ty = some "TEXT"
      · rw [if_pos ht] at h1
        simp only [List.mem_singleton] at h1
        subst h1
        rw [entry_of_color]
        exact parse_text_style_color_clean _
      · rw [if_neg ht] at h1
        cases h1
    · exact entriesOfList_color_clean children e h2

theorem entriesOfList_color_clean (l : List Node) : ∀ e ∈ Main.entriesOfList l, '_' ∉ e.color.data := by
  match l with
  | [] => intro e he; cases he
  | n :: rest =>
    intro e he
    rw [Main.entriesOfList] at he
    rcases List.mem_append.1 he with h1 | h2
    · exact entriesOf_color_clean n e h1
    · exact entriesOfList_color_clean rest e h2

end

/-! Dict lemmas: the colors dict always maps a name c<hex> to the value
#<hex>, so its behaviour is determined by its key set. -/

theorem Follows_def (f : String → String) (d : List (String × String)) :
    (∀ p ∈ d, p.2 = f p.1) ↔ ∀ p ∈ d, p.2 = f p.1 := Iff.rfl

theorem any_key_iff (d : List (String × String)) (k : String) :
    d.any (fun p => p.1 == k) = true ↔ k ∈ d.map Prod.fst := by
  rw [List.any_eq_true]
  constructor
  · rintro ⟨p, hp, he⟩
    rw [beq_iff_eq] at he
    exact he ▸ List.mem_map_of_mem Prod.fst hp
  · intro hk
    rcases List.mem_map.1 hk with ⟨p, hp, he⟩
    exact ⟨p, hp, beq_iff_eq.mpr he⟩

theorem mem_keys_dictInsert (d : List (String × String)) (k v k' : String) :
    k' ∈ (dictInsert d k v).map Prod.fst ↔ k' ∈ d.map Prod.fst ∨ k' = k := by
  unfold dictInsert
  by_cases hmem : d.any (fun p => p.1 == k) = true
  · rw [if_pos hmem, List.map_map]
    have hmap : d.map (Prod.fst ∘ fun p => if p.1 == k then (k, v) else p) = d.map Prod.fst := by
      apply List.map_congr_left
      intro p _
      by_cases hp : p.1 == k
      · simp only [Function.comp_apply, if_pos hp]
        exact (beq_iff_eq.mp hp).symm
      · simp only [Function.comp_apply, if_neg hp]
    rw [hmap]
    constructor
    · exact Or.inl
    · rintro (h | rfl)
      · exact h
      · exact (any_key_iff d k').mp hmem
  · rw [if_neg hmem, List.map_append, List.mem_append]
    simp

theorem lookupA_follows {f : String → String} {d : List (String × String)}
    (hf : ∀ p ∈ d, p.2 = f p.1) (k : String) :
    lookupA d k = if k ∈ d.map Prod.fst then some (f k) else none := by
  induction d with
  | nil => rfl
  | cons p d ih =>
    rw [lookupA]
    by_cases hp : (p.1 == k) = true
    · rw [if_pos hp]
      have hk : p.1 = k := beq_iff_eq.mp hp
      rw [if_pos (by rw [List.map_cons]; exact hk ▸ List.mem_cons_self _ _)]
      rw [hf p (List.mem_cons_self _ _), hk]
    · rw [if_neg hp]
      have hne : p.1 ≠ k := fun he => hp (beq_iff_eq.mpr he)
      rw [ih (fun q hq => hf q (List.mem_cons_of_mem _ hq))]
      have hk : k ∈ (p :: d).map Prod.fst ↔ k ∈ d.map Prod.fst := by
        rw [List.map_cons, List.mem_cons]
        constructor
        · rintro (rfl | h)
          · exact absurd rfl hne
          · exact h
        · exact Or.inr
      by_cases hm : k ∈ d.map Prod.fst
      · rw [if_pos hm, if_pos (hk.mpr hm)]
      · rw [if_neg hm, if_neg (fun hc => hm (hk.mp hc))]

theorem dictInsert_follows {f : String → String} {d : List (String × String)} {k v : String}
    (hf : ∀ p ∈ d, p.2 = f p.1) (hv : v = f k) :
    ∀ p ∈ dictInsert d k v, p.2 = f p.1 := by
  intro p hp
  unfold dictInsert at hp
  by_cases hmem : d.any (fun q => q.1 == k) = true
  · rw [if_pos hmem] at hp
    rcases List.mem_map.1 hp with ⟨q, hq, he⟩
    by_cases hqk : q.1 == k
    · rw [if_pos hqk] at he
      rw [← he]
      exact hv
    · rw [if_neg hqk] at he
      exact he ▸ hf q hq
  · rw [if_neg hmem] at hp
    rcases List.mem_append.1 hp with h1 | h2
    · exact hf p h1
    · simp only [List.mem_singleton] at h2
      exact h2 ▸ hv

theorem dictInsert_id {f : String → String} {d : List (String × String)} {k : String}
    (hf : ∀ p ∈ d, p.2 = f p.1) (hk : k ∈ d.map Prod.fst) :
    dictInsert d k (f k) = d := by
  unfold dictInsert
  rw [if_pos ((any_key_iff d k).mpr hk)]
  have : d.map (fun p => if p.1 == k then (k, f k) else p) = d.map id := by
    apply List.map_congr_left
    intro p hp
    by_cases hpk : p.1 == k
    · have he : p.1 = k := beq_iff_eq.mp hpk
      rw [if_pos hpk, id]
      obtain ⟨a, b⟩ := p
      simp only at he
      have hb : b = f a := hf (a, b) hp
      rw [he] at hb ⊢
      rw [hb]
    · rw [if_neg hpk, id]
  rw [this, List.map_id]

theorem foldIns_follows {f : String → String} {ps : List (String × String)}
    (hps : ∀ p ∈ ps, p.2 = f p.1) :
    ∀ {d : List (String × String)}, (∀ p ∈ d, p.2 = f p.1) →
      ∀ p ∈ foldIns d ps, p.2 = f p.1 := by
  induction ps with
  | nil => intro d hd; exact hd
  | cons q qs ih =>
    intro d hd
    have hq := hps q (List.mem_cons_self _ _)
    exact ih (fun p hp => hps p (List.mem_cons_of_mem _ hp)) (dictInsert_follows hd hq)

theorem mem_keys_foldIns (ps : List (String × String)) :
    ∀ (d : List (String × String)) (k : String),
      k ∈ (foldIns d ps).map Prod.fst ↔ k ∈ d.map Prod.fst ∨ k ∈ ps.map Prod.fst := by
  induction ps with
  | nil => intro d k; simp [foldIns]
  | cons q qs ih =>
    intro d k
    show k ∈ (foldIns (dictInsert d q.1 q.2) qs).map Prod.fst ↔ _
    rw [ih, mem_keys_dictInsert, List.map_cons, List.mem_cons]
    tauto

theorem foldIns_id {f : String → String} {ps : List (String × String)} :
    ∀ {d : List (String × String)}, (∀ p ∈ d, p.2 = f p.1) → (∀ p ∈ ps, p.2 = f p.1) →
      (∀ p ∈ ps, p.1 ∈ d.map Prod.fst) → foldIns d ps = d := by
  induction ps with
  | nil => intro d _ _ _; rfl
  | cons q qs ih =>
    intro d hd hps hkeys
    show foldIns (dictInsert d q.1 q.2) qs = d
    have hq2 : q.2 = f q.1 := hps q (List.mem_cons_self _ _)
    have hins : dictInsert d q.1 q.2 = d := by
      rw [hq2]
      exact dictInsert_id hd (hkeys q (List.mem_cons_self _ _))
    rw [hins]
    exact ih hd (fun p hp => hps p (List.mem_cons_of_mem _ hp))
      (fun p hp => hkeys p (List.mem_cons_of_mem _ hp))

/-! The color pairs the walker inserts all follow color_value_of_name. -/

theorem cvn_pair (hex : String) : color_value_of_name ("c" ++ hex) = "#" ++ hex := by
  unfold color_value_of_name
  have hd : (("c" : String) ++ hex).data = 'c' :: hex.data := by
    rw [String.data_append]
    rfl
  rw [hd]
  rfl

theorem solid_pairs_mem {fills : List Fill} {p : String × String} (hp : p ∈ solid_pairs fills) :
    ∃ hex : String, p = ("c" ++ hex, "#" ++ hex) := by
  unfold solid_pairs at hp
  rcases List.mem_filterMap.1 hp with ⟨fl, _, he⟩
  by_cases ht : fl.type = some "SOLID"
  · rw [if_pos ht] at he
    cases hc : fl.color with
    | none => rw [hc] at he; cases he
    | some c =>
      rw [hc] at he
      have he2 : some ("c" ++ rgb_to_hex c.r c.g c.b, "#" ++ rgb_to_hex c.r c.g c.b) = some p := he
      exact ⟨rgb_to_hex c.r c.g c.b, (Option.some.inj he2).symm⟩
  · rw [if_neg ht] at he
    cases he

theorem solid_pairs_follows (fills : List Fill) :
    ∀ p ∈ solid_pairs fills, p.2 = color_value_of_name p.1 := by
  intro p hp
  obtain ⟨hex, rfl⟩ := solid_pairs_mem hp
  exact (cvn_pair hex).symm

mutual

theorem colorPairs_follows (n : Node) :
    ∀ p ∈ colorPairs n, p.2 = color_value_of_name p.1 := by
  match n with
  | Node.mk ty fills style children =>
    intro p hp
    rw [colorPairs] at hp
    rcases List.mem_append.1 hp with h1 | h2
    · exact solid_pairs_follows fills p h1
    · exact colorPairsList_follows children p h2

theorem colorPairsList_follows (l : List Node) :
    ∀ p ∈ colorPairsList l, p.2 = color_value_of_name p.1 := by
  match l with
  | [] => intro p hp; cases hp
  | n :: rest =>
    intro p hp
    rw [colorPairsList] at hp
    rcases List.mem_append.1 hp with h1 | h2
    · exact colorPairs_follows n p h1
    · exact colorPairsList_follows rest p h2

end

theorem parse_fills_ok : ∀ (fills : List Fill) (colors cs : List (String × String)),
    parse_fills fills colors = .ok cs → cs = foldIns colors (solid_pairs fills) := by
  intro fills
  induction fills with
  | nil =>
    intro colors cs h
    rw [parse_fills] at h
    cases h
    rfl
  | cons fl fls ih =>
    intro colors cs h
    rw [parse_fills] at h
    split at h
    · cases h
    · rename_i ty hty
      by_cases hs : ty = "SOLID"
      · rw [if_pos hs] at h
        split at h
        · cases h
        · rename_i c hc
          have hrec := ih _ _ h
          rw [hrec]
          have hsp : solid_pairs (fl :: fls) =
              ("c" ++ rgb_to_hex c.r c.g c.b, "#" ++ rgb_to_hex c.r c.g c.b) :: solid_pairs fls := by
            unfold solid_pairs
            rw [List.filterMap_cons, if_pos (by rw [hty, hs]), hc]
            rfl
          rw [hsp]
          rfl
      · rw [if_neg hs] at h
        have hrec := ih _ _ h
        rw [hrec]
        have hsp : solid_pairs (fl :: fls) = solid_pairs fls := by
          unfold solid_pairs
          rw [List.filterMap_cons, if_neg (by rw [hty]; intro hcon; exact hs (by injection hcon))]
        rw [hsp]

/-! Lemmas about first-occurrence deduplication. -/

theorem dedupKeep_congr : ∀ (l : List StyleDef) (s1 s2 : List String),
    (∀ k, k ∈ s1 ↔ k ∈ s2) → dedupKeep s1 l = dedupKeep s2 l := by
  intro l
  induction l with
  | nil => intro s1 s2 _; rfl
  | cons e es ih =>
    intro s1 s2 h
    rw [dedupKeep, dedupKeep]
    by_cases hk : keyOf e ∈ s1
    · rw [if_pos hk, if_pos ((h _).mp hk)]
      exact ih s1 s2 h
    · rw [if_neg hk, if_neg (fun hc => hk ((h _).mpr hc))]
      rw [ih (keyOf e :: s1) (keyOf e :: s2)
        (fun k => by rw [List.mem_cons, List.mem_cons, h k])]

theorem dedupKeep_append : ∀ (l1 l2 : List StyleDef) (s : List String),
    dedupKeep s (l1 ++ l2) = dedupKeep s l1 ++ dedupKeep (l1.map keyOf ++ s) l2 := by
  intro l1
  induction l1 with
  | nil =>
    intro l2 s
    rw [List.nil_append, List.map_nil, List.nil_append]
    rw [dedupKeep]
    rw [List.nil_append]
  | cons e es ih =>
    intro l2 s
    rw [List.cons_append, dedupKeep, dedupKeep]
    by_cases hk : keyOf e ∈ s
    · rw [if_pos hk, if_pos hk, ih]
      have hc : dedupKeep (es.map keyOf ++ s) l2 = dedupKeep ((e :: es).map keyOf ++ s) l2 := by
        apply dedupKeep_congr
        intro k
        simp only [List.map_cons, List.cons_append, List.mem_cons, List.mem_append]
        constructor
        · intro h
          rcases h with h | h
          · exact Or.inr (Or.inl h)
          · exact Or.inr (Or.inr h)
        · rintro (rfl | h | h)
          · exact Or.inr hk
          · exact Or.inl h
          · exact Or.inr h
      rw [hc]
    · rw [if_neg hk, if_neg hk]
      rw [ih l2 (keyOf e :: s)]
      have hc : dedupKeep (es.map keyOf ++ keyOf e :: s) l2 =
          dedupKeep ((e :: es).map keyOf ++ s) l2 := by
        apply dedupKeep_congr
        intro k
        simp only [List.map_cons, List.cons_append, List.mem_cons, List.mem_append]
        tauto
      rw [hc, List.cons_append]

theorem dedupKeep_subset : ∀ (l : List StyleDef) (seen : List String),
    ∀ e ∈ dedupKeep seen l, e ∈ l := by
  intro l
  induction l with
  | nil => intro seen e he; cases he
  | cons a as ih =>
    intro seen e he
    rw [dedupKeep] at he
    by_cases hk : keyOf a ∈ seen
    · rw [if_pos hk] at he
      exact List.mem_cons_of_mem _ (ih seen e he)
    · rw [if_neg hk] at he
      rcases List.mem_cons.1 he with rfl | h2
      · exact List.mem_cons_self _ _
      · exact List.mem_cons_of_mem _ (ih _ e h2)

theorem dedupKeep_keys : ∀ (l : List StyleDef) (seen : List String),
    ((dedupKeep seen l).map keyOf).Nodup ∧
      (∀ k, k ∈ (dedupKeep seen l).map keyOf ↔ (k ∉ seen ∧ k ∈ l.map keyOf)) := by
  intro l
  induction l with
  | nil =>
    intro seen
    refine ⟨List.nodup_nil, ?_⟩
    intro k
    rw [dedupKeep]
    simp
  | cons a as ih =>
    intro seen
    rw [dedupKeep]
    by_cases hk : keyOf a ∈ seen
    · rw [if_pos hk]
      obtain ⟨h1, h3⟩ := ih seen
      refine ⟨h1, ?_⟩
      intro k
      rw [h3 k, List.map_cons, List.mem_cons]
      constructor
      · rintro ⟨hs, hm⟩
        exact ⟨hs, Or.inr hm⟩
      · rintro ⟨hs, rfl | hm⟩
        · exact absurd hk hs
        · exact ⟨hs, hm⟩
    · rw [if_neg hk]
      obtain ⟨h1, h3⟩ := ih (keyOf a :: seen)
      refine ⟨?_, ?_⟩
      · rw [List.map_cons, List.nodup_cons]
        refine ⟨?_, h1⟩
        intro hc
        exact ((h3 _).mp hc).1 (List.mem_cons_self _ _)
      · intro k
        rw [List.map_cons, List.mem_cons, List.map_cons, List.mem_cons, h3 k, List.mem_cons]
        constructor
        · rintro (rfl | ⟨hns, hm⟩)
          · exact ⟨hk, Or.inl rfl⟩
          · exact ⟨fun hs => hns (Or.inr hs), Or.inr hm⟩
        · rintro ⟨hns, rfl | hm⟩
          · exact Or.inl rfl
          · by_cases heq : k = keyOf a
            · exact Or.inl heq
            · exact Or.inr ⟨fun hc => hc.elim heq hns, hm⟩

theorem dedupKeep_find? : ∀ (l : List StyleDef) (seen : List String) (k : String),
    (k ∈ seen → (dedupKeep seen l).find? (fun e => keyOf e == k) = none) ∧
      (k ∉ seen → (dedupKeep seen l).find? (fun e => keyOf e == k) =
        l.find? (fun e => keyOf e == k)) := by
  intro l
  induction l with
  | nil => intro seen k; rw [dedupKeep]; exact ⟨fun _ => rfl, fun _ => rfl⟩
  | cons a as ih =>
    intro seen k
    rw [dedupKeep]
    constructor
    · intro hks
      by_cases hk : keyOf a ∈ seen
      · rw [if_pos hk]
        exact (ih seen k).1 hks
      · rw [if_neg hk]
        have hne : (keyOf a == k) = false := by
          rw [beq_eq_false_iff_ne]
          intro he
          exact hk (he ▸ hks)
        rw [List.find?_cons, hne]
        exact (ih (keyOf a :: seen) k).1 (List.mem_cons_of_mem _ hks)
    · intro hks
      by_cases hk : keyOf a ∈ seen
      · rw [if_pos hk]
        have hne : (keyOf a == k) = false := by
          rw [beq_eq_false_iff_ne]
          intro he
          exact hks (he ▸ hk)
        rw [List.find?_cons, hne]
        exact (ih seen k).2 hks
      · rw [if_neg hk]
        rw [List.find?_cons, List.find?_cons]
        by_cases heq : (keyOf a == k) = true
        · rw [heq]
        · rw [Bool.not_eq_true] at heq
          rw [heq]
          have hkna : k ∉ keyOf a :: seen := by
            intro hc
            rcases List.mem_cons.1 hc with rfl | hc2
            · rw [beq_self_eq_true] at heq
              cases heq
            · exact hks hc2
          exact (ih (keyOf a :: seen) k).2 hkna

/-! The effect of one walker call on the state, composed from the effects
of its pieces. -/

theorem StStep_refl (st : WalkState) : StStep st st [] [] := by
  refine ⟨rfl, ?_, ?_⟩
  · rw [dedupKeep, List.append_nil]
  · intro k
    simp

theorem StStep_comp {st st1 st2 : WalkState} {ps1 es1 ps2 es2}
    (h1 : StStep st st1 ps1 es1) (h2 : StStep st1 st2 ps2 es2) :
    StStep st st2 (ps1 ++ ps2) (es1 ++ es2) := by
  obtain ⟨hc1, ht1, hu1⟩ := h1
  obtain ⟨hc2, ht2, hu2⟩ := h2
  refine ⟨?_, ?_, ?_⟩
  · rw [hc2, hc1]
    unfold foldIns
    rw [List.foldl_append]
  · rw [ht2, ht1, dedupKeep_append, List.append_assoc]
    have hc : dedupKeep st1.unique_styles es2 =
        dedupKeep (es1.map keyOf ++ st.unique_styles) es2 := by
      apply dedupKeep_congr
      intro k
      rw [hu1 k, List.mem_append]
      tauto
    rw [hc]
  · intro k
    rw [hu2 k, hu1 k, List.map_append, List.mem_append]
    tauto

theorem StStep_cast {st st' : WalkState} {ps ps' es es'}
    (hps : ps = ps') (hes : es = es') (h : StStep st st' ps es) : StStep st st' ps' es' :=
  hps ▸ hes ▸ h

theorem text_step_spec (n : Node) (st : WalkState) :
    StStep st (Main.text_step n st) [] [Main.entry_of n] := by
  have hts : Main.text_step n st =
      (if keyOf (Main.entry_of n) ∈ st.unique_styles then st
       else { st with unique_styles := keyOf (Main.entry_of n) :: st.unique_styles,
                      text_styles := st.text_styles ++ [Main.entry_of n] }) := by
    unfold Main.text_step Main.entry_of keyOf
    rcases hp : parse_text_style n with ⟨ff, fw, fs, c⟩
    rfl
  rw [hts]
  by_cases hk : keyOf (Main.entry_of n) ∈ st.unique_styles
  · rw [if_pos hk]
    refine ⟨rfl, ?_, ?_⟩
    · rw [dedupKeep, if_pos hk, dedupKeep, List.append_nil]
    · intro k
      rw [List.map_cons, List.map_nil, List.mem_cons]
      constructor
      · exact Or.inl
      · rintro (h | rfl | h)
        · exact h
        · exact hk
        · cases h
  · rw [if_neg hk]
    refine ⟨rfl, ?_, ?_⟩
    · show st.text_styles ++ [Main.entry_of n] =
        st.text_styles ++ dedupKeep st.unique_styles [Main.entry_of n]
      rw [dedupKeep, if_neg hk, dedupKeep]
    · intro k
      show k ∈ keyOf (Main.entry_of n) :: st.unique_styles ↔ _
      rw [List.mem_cons, List.map_cons, List.map_nil, List.mem_cons]
      tauto

mutual

theorem parse_node_spec (n : Node) (st st' : WalkState)
    (h : Main.parse_node n st = .ok st') :
    StStep st st' (colorPairs n) (Main.entriesOf n) := by
  match n with
  | Node.mk ty fills style children =>
    rw [Main.parse_node] at h
    split at h
    · cases h
    · rename_i cs hcs
      have h1 : StStep st { st with colors := cs } (solid_pairs fills) [] := by
        refine ⟨parse_fills_ok fills st.colors cs hcs, ?_, ?_⟩
        · show st.text_styles = st.text_styles ++ dedupKeep st.unique_styles []
          rw [dedupKeep, List.append_nil]
        · intro k
          simp
      by_cases ht : ty = some "TEXT"
      · rw [if_pos ht] at h
        have h2 := text_step_spec (Node.mk ty fills style children) { st with colors := cs }
        have h3 := parse_nodes_spec children _ st' h
        refine StStep_cast ?_ ?_ (StStep_comp (StStep_comp h1 h2) h3)
        · rw [colorPairs, List.append_nil]
        · rw [Main.entriesOf, if_pos ht, List.nil_append]
      · rw [if_neg ht] at h
        have h3 := parse_nodes_spec children _ st' h
        refine StStep_cast ?_ ?_ (StStep_comp h1 h3)
        · rw [colorPairs]
        · rw [Main.entriesOf, if_neg ht, List.nil_append]

theorem parse_nodes_spec (l : List Node) (st st' : WalkState)
    (h : Main.parse_nodes l st = .ok st') :
    StStep st st' (colorPairsList l) (Main.entriesOfList l) := by
  match l with
  | [] =>
    rw [Main.parse_nodes] at h
    cases h
    exact StStep_refl st
  | n :: rest =>
    rw [Main.parse_nodes] at h
    split at h
    · cases h
    · rename_i st1 hst1
      have ha := parse_node_spec n st st1 hst1
      have hb := parse_nodes_spec rest st1 st' h
      exact StStep_comp ha hb

end

/-! Claim theorems. -/

/-- C5: parse_text_style never raises: it is a total function into
4-tuples, any exception inside the try body yields the full fallback
tuple ("FontNotFound", 400, 14, "000000"), and a TEXT node with no style
field and no fills yields exactly that tuple and still produces exactly
one entry in the walker's output list (here the walk of a document
containing that node twice). -/
theorem claim5_fallback :
    (∀ n : Node, parse_text_style_try n = .error () →
      parse_text_style n = ("FontNotFound", 400, 14, "000000")) ∧
    parse_text_style c5node = ("FontNotFound", 400, 14, "000000") ∧
    Main.parse_node c5tree initState = .ok c5state := by
  refine ⟨?_, by decide, by decide⟩
  intro n he
  unfold parse_text_style
  rw [he]

/-- Witness for C5: the fallback implication applied to the concrete
style-less TEXT node. -/
theorem claim5_witness : parse_text_style c5node = ("FontNotFound", 400, 14, "000000") :=
  claim5_fallback.1 c5node (by decide)

/-- C6: when the nodes mapping of a node-scoped response does not contain
the requested identifier as a key, a single-entry mapping supplies its
only entry as the target, and a mapping with zero or two or more entries
makes the run fail with an error listing all available keys. -/
theorem claim6_node_resolution (m : List (String × ById.NodeEntry)) (nid : String)
    (habs : lookupA m nid = none) :
    (∀ p, m = [p] → ById.resolve_target m nid = .ok p.2) ∧
    (m.length ≠ 1 → ById.resolve_target m nid = .error (m.map Prod.fst)) := by
  unfold ById.resolve_target
  rw [habs]
  constructor
  · rintro p rfl
    rfl
  · intro hlen
    match m with
    | [] => rfl
    | [p] => exact absurd rfl hlen
    | p :: q :: rest => rfl

/-- Witness for C6: a two-entry mapping without the requested key fails
with the error listing both keys. -/
theorem claim6_witness : ById.resolve_target c6map "1:2" = .error ["10:1", "10:2"] :=
  (claim6_node_resolution c6map "1:2" rfl).2 (by decide)

/-- C7: every fetch-time or structural error aborts the run before any
file is written: a non-200 status (both scripts), a missing document
field (both scripts), and an unresolvable requested node (by-id script)
all produce an empty list of written files. -/
theorem claim7_abort_paths :
    (∀ resp : Main.FileResp, resp.status ≠ 200 → Main.process_figma_file resp = []) ∧
    (∀ resp : Main.FileResp, resp.document = none → Main.process_figma_file resp = []) ∧
    (∀ (resp : ById.ByIdResp) (nid : String), resp.status ≠ 200 →
      ById.process_figma_file resp nid = []) ∧
    (∀ (resp : ById.ByIdResp) (nid : String) (ks : List String),
      ById.resolve_target resp.nodes nid = .error ks → ById.process_figma_file resp nid = []) ∧
    (∀ (resp : ById.ByIdResp) (nid : String) (entry : ById.NodeEntry),
      ById.resolve_target resp.nodes nid = .ok entry → entry.document = none →
      ById.process_figma_file resp nid = []) := by
  refine ⟨?_, ?_, ?_, ?_, ?_⟩
  · intro resp h
    unfold Main.process_figma_file
    rw [if_pos h]
  · intro resp h
    unfold Main.process_figma_file
    by_cases hs : resp.status ≠ 200
    · rw [if_pos hs]
    · rw [if_neg hs, h]
  · intro resp nid h
    unfold ById.process_figma_file
    rw [if_pos h]
  · intro resp nid ks h
    unfold ById.process_figma_file
    by_cases hs : resp.status ≠ 200
    · rw [if_pos hs]
    · rw [if_neg hs, h]
  · intro resp nid entry h hdoc
    unfold ById.process_figma_file
    by_cases hs : resp.status ≠ 200
    · rw [if_pos hs]
    · rw [if_neg hs, h]
      have hred : (match entry.document with
          | none => ([] : List (String × String))
          | some root =>
            match ById.parse_node root initState with
            | .error _ => []
            | .ok st => [(COLORS_OUTPUT, save_colors_xml st.colors),
                         (TEXTSTYLES_OUTPUT, ById.save_text_styles_dart st.text_styles)]) = [] := by
        rw [hdoc]
      exact hred

/-- Witness for C7: a 404 response writes no files. -/
theorem claim7_witness : Main.process_figma_file ⟨404, none⟩ = [] :=
  claim7_abort_paths.1 ⟨404, none⟩ (by decide)

/-- Counterexample to C2 as stated: a concrete run in which two produced
entries have different deduplication keys but the same derived name
(weight 4 with sanitized font name 2abc versus weight 42 with abc). -/
theorem claim2_counterexample :
    Main.parse_node c2tree initState = .ok c2state ∧
    c2state.text_styles.map StyleDef.name = ["text12c000000w42abc", "text12c000000w42abc"] ∧
    c2state.text_styles.map keyOf = ["12_000000_4_2abc", "12_000000_42_abc"] ∧
    ("12_000000_4_2abc" : String) ≠ "12_000000_42_abc" := by
  refine ⟨by decide, by decide, by decide, by decide⟩

/-- C2 (amended): the derived main.py style name is collision-resistant
for tuples whose color is six characters long and whose sanitized font
name does not begin with a decimal digit: differing deduplication keys
then give differing names.  (Without the digit restriction the name is
ambiguous, as the counterexample shows.) -/
theorem claim2_amended (s1 s2 w1 w2 : ℤ) (c1 c2 f1 f2 : String)
    (hc1 : c1.data.length = 6) (hc2 : c2.data.length = 6)
    (hf1 : headNotDigit f1.data) (hf2 : headNotDigit f2.data)
    (hkey : style_key s1 c1 w1 f1 ≠ style_key s2 c2 w2 f2) :
    Main.style_name s1 c1 w1 f1 ≠ Main.style_name s2 c2 w2 f2 := by
  intro h
  obtain ⟨hs, hc, hw, hf⟩ := style_name_inj_main hc1 hc2 hf1 hf2 h
  subst hs
  subst hc
  subst hw
  subst hf
  exact hkey rfl

/-- Witness for C2 (amended): two concrete tuples with different keys get
different names. -/
theorem claim2_witness :
    Main.style_name 12 "000000" 4 "Xa" ≠ Main.style_name 12 "000000" 42 "a" :=
  claim2_amended 12 12 4 42 "000000" "000000" "Xa" "a" (by decide) (by decide)
    (fun c hc => by cases hc; decide) (fun c hc => by cases hc; decide) (by decide)

/-- C10: deduplication keeps the first occurrence: in a successful run
started from the initial state, looking up the first output entry with a
given deduplication key gives exactly the first pre-order text entry
with that key, with its name and raw font family; later duplicates never
replace or modify it. -/
theorem claim10_first_wins (t : Node) (st' : WalkState)
    (h : Main.parse_node t initState = .ok st') (k : String) :
    st'.text_styles.find? (fun e => keyOf e == k) =
      (Main.entriesOf t).find? (fun e => keyOf e == k) := by
  obtain ⟨_, hstyles, _⟩ := parse_node_spec t initState st' h
  rw [hstyles]
  show ([] ++ dedupKeep [] (Main.entriesOf t)).find? _ = _
  rw [List.nil_append]
  exact (dedupKeep_find? (Main.entriesOf t) [] k).2 (by simp)

/-- Witness for C10: in the concrete run over c10tree the retained entry
for the shared key carries the name and font family Open Sans of the
first node, not OpenSans of the second. -/
theorem claim10_witness :
    (WalkState.text_styles
        ⟨[], [⟨"text12c000000w400OpenSans", "Open Sans", "000000", 12, 400⟩],
         ["12_000000_400_OpenSans"]⟩).find? (fun e => keyOf e == "12_000000_400_OpenSans") =
      (Main.entriesOf c10tree).find? (fun e => keyOf e == "12_000000_400_OpenSans") :=
  claim10_first_wins c10tree
    ⟨[], [⟨"text12c000000w400OpenSans", "Open Sans", "000000", 12, 400⟩],
     ["12_000000_400_OpenSans"]⟩ (by decide) "12_000000_400_OpenSans"

/-! Counting lemmas for the deduplication law. -/

theorem countP_congr_mem {α : Type} {p q : α → Bool} :
    ∀ {l : List α}, (∀ a ∈ l, p a = q a) → l.countP p = l.countP q := by
  intro l
  induction l with
  | nil => intro _; rfl
  | cons a as ih =>
    intro h
    rw [List.countP_cons, List.countP_cons, h a (List.mem_cons_self _ _),
      ih (fun b hb => h b (List.mem_cons_of_mem _ hb))]

theorem countP_key_eq_one : ∀ (l' : List StyleDef) (K : String),
    (l'.map keyOf).Nodup → K ∈ l'.map keyOf →
    l'.countP (fun e => keyOf e == K) = 1 := by
  intro l'
  induction l' with
  | nil => intro K _ hK; cases hK
  | cons a as ih =>
    intro K hnd hK
    rw [List.map_cons, List.nodup_cons] at hnd
    rw [List.countP_cons]
    by_cases ha : keyOf a = K
    · have h0 : as.countP (fun e => keyOf e == K) = 0 := by
        rw [List.countP_eq_zero]
        intro e he hbe
        rw [beq_iff_eq] at hbe
        exact hnd.1 (by rw [ha, ← hbe]; exact List.mem_map_of_mem keyOf he)
      rw [h0, if_pos (beq_iff_eq.mpr ha)]
    · rw [List.map_cons, List.mem_cons] at hK
      rcases hK with h | h
      · exact absurd h.symm ha
      · rw [ih K hnd.2 h, if_neg (fun hc => ha (beq_iff_eq.mp hc))]

/-- C4: the deduplication law: in a successful run from the initial state,
if two or more TEXT nodes of the tree extract the same tuple
(fontSize, color, fontWeight, sanitizedFontName), the output list
contains exactly one entry for that tuple. -/
theorem claim4_dedup_law (t : Node) (st' : WalkState)
    (h : Main.parse_node t initState = .ok st')
    (s : ℤ) (c : String) (w : ℤ) (f : String)
    (hmany : 2 ≤ (Main.entriesOf t).countP (tupleMatchB s c w f)) :
    st'.text_styles.countP (tupleMatchB s c w f) = 1 := by
  obtain ⟨_, hstyles, _⟩ := parse_node_spec t initState st' h
  rw [hstyles]
  show List.countP _ ([] ++ dedupKeep [] (Main.entriesOf t)) = 1
  rw [List.nil_append]
  have hpos : 0 < (Main.entriesOf t).countP (tupleMatchB s c w f) := by omega
  obtain ⟨e0, he0, hpe0⟩ := List.countP_pos.mp hpos
  have hpe0' := hpe0
  unfold tupleMatchB at hpe0'
  simp only [Bool.and_eq_true, beq_iff_eq] at hpe0'
  obtain ⟨⟨⟨hs0, hc0⟩, hw0⟩, hf0⟩ := hpe0'
  have hcc : '_' ∉ c.data := by
    rw [← hc0]
    exact entriesOf_color_clean t e0 he0
  have hkeyE : ∀ e ∈ Main.entriesOf t,
      (tupleMatchB s c w f e = true ↔ keyOf e = style_key s c w f) := by
    intro e he
    unfold tupleMatchB keyOf
    simp only [Bool.and_eq_true, beq_iff_eq]
    constructor
    · rintro ⟨⟨⟨h1, h2⟩, h3⟩, h4⟩
      rw [h1, h2, h3, h4]
    · intro hk
      obtain ⟨h1, h2, h3, h4⟩ := style_key_inj (entriesOf_color_clean t e he) hcc hk
      exact ⟨⟨⟨h1, h2⟩, h3⟩, h4⟩
  have hcongr : (dedupKeep [] (Main.entriesOf t)).countP (tupleMatchB s c w f) =
      (dedupKeep [] (Main.entriesOf t)).countP (fun e => keyOf e == style_key s c w f) := by
    apply countP_congr_mem
    intro e he
    have hel := dedupKeep_subset (Main.entriesOf t) [] e he
    have hiff := hkeyE e hel
    by_cases hb : tupleMatchB s c w f e = true
    · rw [hb, Eq.symm (beq_iff_eq.mpr (hiff.mp hb))]
    · rw [Bool.not_eq_true] at hb
      rw [hb]
      symm
      rw [beq_eq_false_iff_ne]
      intro hc
      have := hiff.mpr hc
      rw [hb] at this
      cases this
  rw [hcongr]
  obtain ⟨hnd, hmem⟩ := dedupKeep_keys (Main.entriesOf t) []
  apply countP_key_eq_one _ _ hnd
  rw [hmem]
  refine ⟨by simp, ?_⟩
  rw [← (hkeyE e0 he0).mp hpe0]
  exact List.mem_map_of_mem keyOf he0

/-- Witness for C4: the run over c5tree, whose two TEXT nodes share the
fallback tuple, yields exactly one matching entry. -/
theorem claim4_witness :
    (WalkState.text_styles c5state).countP (tupleMatchB 14 "000000" 400 "FontNotFound") = 1 :=
  claim4_dedup_law c5tree c5state (by decide) 14 "000000" 400 "FontNotFound" (by decide)

/-! Order lemmas for the two output sorts. -/

theorem strLtB_not_lt_trans : ∀ a b c : List Char,
    strLtB a b = false → strLtB b c = false → strLtB a c = false := by
  intro a
  induction a with
  | nil =>
    intro b c h1 h2
    cases b with
    | nil =>
      cases c with
      | nil => rfl
      | cons z zs => rw [strLtB] at h2; cases h2
    | cons y ys => rw [strLtB] at h1; cases h1
  | cons x xs ih =>
    intro b c h1 h2
    cases b with
    | nil =>
      cases c with
      | nil => rfl
      | cons z zs => rw [strLtB] at h2; cases h2
    | cons y ys =>
      cases c with
      | nil => rfl
      | cons z zs =>
        rw [strLtB] at h1 h2 ⊢
        by_cases hxy : x.toNat < y.toNat
        · rw [if_pos hxy] at h1
          cases h1
        · by_cases hyz : y.toNat < z.toNat
          · rw [if_pos hyz] at h2
            cases h2
          · by_cases hyx : y.toNat < x.toNat
            · rw [if_neg (by omega), if_pos (by omega)]
            · rw [if_neg hxy, if_neg hyx] at h1
              by_cases hzy : z.toNat < y.toNat
              · rw [if_neg (by omega), if_pos (by omega)]
              · rw [if_neg hyz, if_neg hzy] at h2
                rw [if_neg (by omega), if_neg (by omega)]
                exact ih ys zs h1 h2

theorem styleLeB_iff (x y : StyleDef) : styleLeB x y = true ↔
    (x.fontSize < y.fontSize ∨
      (x.fontSize = y.fontSize ∧ (strLtB x.color.data y.color.data = true ∨
        (x.color.data = y.color.data ∧ x.fontWeight ≤ y.fontWeight)))) := by
  unfold styleLeB
  split_ifs with h1 h2 h3 h4
  · simp [h1]
  · constructor
    · intro hc; cases hc
    · rintro (hc | ⟨hc, _⟩) <;> omega
  · constructor
    · intro _
      exact Or.inr ⟨by omega, Or.inl h3⟩
    · intro _
      rfl
  · constructor
    · intro hc; cases hc
    · rintro (hc | ⟨_, hlt | ⟨hce, _⟩⟩)
      · omega
      · exact absurd hlt h3
      · rw [hce] at h4
        rw [strLtB_irrefl] at h4
        cases h4
  · have hce : x.color.data = y.color.data :=
      strLtB_connex _ _ (by rwa [Bool.not_eq_true] at h3) (by rwa [Bool.not_eq_true] at h4)
    rw [decide_eq_true_eq]
    constructor
    · intro hw
      exact Or.inr ⟨by omega, Or.inr ⟨hce, hw⟩⟩
    · rintro (hc | ⟨_, hlt | ⟨_, hw⟩⟩)
      · omega
      · exact absurd hlt h3
      · exact hw

theorem styleLe_trans : ∀ x y z : StyleDef, styleLe x y → styleLe y z → styleLe x z := by
  intro x y z hxy hyz
  unfold styleLe at *
  rw [styleLeB_iff] at *
  rcases hxy with h | ⟨he1, hc⟩ <;> rcases hyz with h' | ⟨he2, hc'⟩
  · exact Or.inl (by omega)
  · exact Or.inl (by omega)
  · exact Or.inl (by omega)
  · refine Or.inr ⟨by omega, ?_⟩
    rcases hc with hlt | ⟨hce, hw⟩ <;> rcases hc' with hlt' | ⟨hce', hw'⟩
    · exact Or.inl (strLtB_trans _ _ _ hlt hlt')
    · exact Or.inl (by rw [← hce']; exact hlt)
    · exact Or.inl (by rw [hce]; exact hlt')
    · exact Or.inr ⟨hce.trans hce', by omega⟩

theorem styleLe_total : ∀ x y : StyleDef, styleLe x y ∨ styleLe y x := by
  intro x y
  unfold styleLe
  rw [styleLeB_iff, styleLeB_iff]
  rcases lt_trichotomy x.fontSize y.fontSize with h | h | h
  · exact Or.inl (Or.inl h)
  · by_cases hlt : strLtB x.color.data y.color.data = true
    · exact Or.inl (Or.inr ⟨h, Or.inl hlt⟩)
    · by_cases hlt2 : strLtB y.color.data x.color.data = true
      · exact Or.inr (Or.inr ⟨h.symm, Or.inl hlt2⟩)
      · have hce := strLtB_connex _ _ (by rwa [Bool.not_eq_true] at hlt)
          (by rwa [Bool.not_eq_true] at hlt2)
        rcases le_total x.fontWeight y.fontWeight with hw | hw
        · exact Or.inl (Or.inr ⟨h, Or.inr ⟨hce, hw⟩⟩)
        · exact Or.inr (Or.inr ⟨h.symm, Or.inr ⟨hce.symm, hw⟩⟩)
  · exact Or.inr (Or.inl h)

theorem pairLeB_iff (p q : String × String) : pairLeB p q = true ↔
    (strLtB p.1.data q.1.data = true ∨
      (p.1.data = q.1.data ∧ strLeB p.2.data q.2.data = true)) := by
  unfold pairLeB
  split_ifs with h1 h2
  · simp [h1]
  · constructor
    · intro hc; cases hc
    · rintro (hc | ⟨hce, _⟩)
      · exact absurd hc h1
      · rw [hce] at h2
        rw [strLtB_irrefl] at h2
        cases h2
  · have hce : p.1.data = q.1.data :=
      strLtB_connex _ _ (by rwa [Bool.not_eq_true] at h1) (by rwa [Bool.not_eq_true] at h2)
    constructor
    · intro hle
      exact Or.inr ⟨hce, hle⟩
    · rintro (hc | ⟨_, hle⟩)
      · exact absurd hc h1
      · exact hle

theorem pairLe_trans : ∀ p q r : String × String, pairLe p q → pairLe q r → pairLe p r := by
  intro p q r hpq hqr
  unfold pairLe at *
  rw [pairLeB_iff] at *
  rcases hpq with h | ⟨he, hle⟩ <;> rcases hqr with h' | ⟨he', hle'⟩
  · exact Or.inl (strLtB_trans _ _ _ h h')
  · exact Or.inl (by rw [← he']; exact h)
  · exact Or.inl (by rw [he]; exact h')
  · refine Or.inr ⟨he.trans he', ?_⟩
    unfold strLeB at *
    rw [Bool.not_eq_true'] at hle hle' ⊢
    exact strLtB_not_lt_trans _ _ _ hle' hle

theorem pairLe_total : ∀ p q : String × String, pairLe p q ∨ pairLe q p := by
  intro p q
  unfold pairLe
  rw [pairLeB_iff, pairLeB_iff]
  by_cases h1 : strLtB p.1.data q.1.data = true
  · exact Or.inl (Or.inl h1)
  · by_cases h2 : strLtB q.1.data p.1.data = true
    · exact Or.inr (Or.inl h2)
    · have hce := strLtB_connex _ _ (by rwa [Bool.not_eq_true] at h1)
        (by rwa [Bool.not_eq_true] at h2)
      by_cases h3 : strLtB q.2.data p.2.data = true
      · refine Or.inr (Or.inr ⟨hce.symm, ?_⟩)
        unfold strLeB
        rw [Bool.not_eq_true']
        exact strLtB_asymm h3
      · refine Or.inl (Or.inr ⟨hce, ?_⟩)
        unfold strLeB
        rw [Bool.not_eq_true']
        rwa [Bool.not_eq_true] at h3

/-- Counterexample to C3 as stated: a successful run whose two retained
styles share (fontSize, color, fontWeight) and differ only in the font
name, so the sorted text-style output is not strictly sorted by the
composite key. -/
theorem claim3_counterexample :
    Main.parse_node c3tree initState = .ok c3state ∧
    ¬ List.Pairwise styleLt (sorted_styles c3state.text_styles) :=
  ⟨by decide, by decide⟩

/-- C3 (amended): the color output is strictly sorted by key whenever the
collected color keys are distinct (which every dict guarantees), and the
text-style output is sorted, in general non-strictly, by the composite
key (fontSize, color, fontWeight): entries that differ only in the
sanitized font name tie. -/
theorem claim3_amended (colors : List (String × String)) (styles : List StyleDef) :
    ((colors.map Prod.fst).Nodup → List.Pairwise pairKeyLt (sorted_colors colors)) ∧
    List.Pairwise styleLe (sorted_styles styles) := by
  constructor
  · intro hnd
    haveI : IsTrans (String × String) pairLe := ⟨pairLe_trans⟩
    haveI : IsTotal (String × String) pairLe := ⟨pairLe_total⟩
    have hs : List.Pairwise pairLe (sorted_colors colors) :=
      List.sorted_insertionSort pairLe colors
    have hperm : (sorted_colors colors).Perm colors := List.perm_insertionSort pairLe colors
    have hnd2 : ((sorted_colors colors).map Prod.fst).Nodup :=
      (List.Perm.nodup_iff (hperm.map Prod.fst)).mpr hnd
    have hne : List.Pairwise (fun p q : String × String => p.1 ≠ q.1) (sorted_colors colors) :=
      List.pairwise_map.mp hnd2
    refine (hs.and hne).imp ?_
    intro a b hab
    obtain ⟨hle, hner⟩ := hab
    unfold pairKeyLt
    unfold pairLe at hle
    rw [pairLeB_iff] at hle
    rcases hle with h | ⟨he, _⟩
    · exact h
    · exact absurd (string_data_inj he) hner
  · haveI : IsTrans StyleDef styleLe := ⟨styleLe_trans⟩
    haveI : IsTotal StyleDef styleLe := ⟨styleLe_total⟩
    exact List.sorted_insertionSort styleLe styles

/-- Witness for C3 (amended): the sorted outputs for a concrete color
dict and the style list of the counterexample run. -/
theorem claim3_witness :
    List.Pairwise pairKeyLt (sorted_colors [("cFF0000", "#FF0000"), ("c000000", "#000000")]) ∧
    List.Pairwise styleLe (sorted_styles c3state.text_styles) :=
  ⟨(claim3_amended [("cFF0000", "#FF0000"), ("c000000", "#000000")] c3state.text_styles).1
      (by decide),
   (claim3_amended [("cFF0000", "#FF0000"), ("c000000", "#000000")] c3state.text_styles).2⟩

/-! Concrete values of the rational-to-hex conversions, established once
and used to evaluate concrete runs. -/

theorem pyRound_mul_zero : pyRound ((0 : ℚ) * 255) = 0 := by
  norm_num [pyRound]

theorem pyRound_mul_one : pyRound ((1 : ℚ) * 255) = 255 := by
  norm_num [pyRound]

theorem pyInt_16 : pyInt ((16 : ℚ)) = 16 := by
  norm_num [pyInt]

theorem rgb_hex_100 : rgb_to_hex 1 0 0 = "FF0000" := by
  simp only [rgb_to_hex, pyRound_mul_one, pyRound_mul_zero]
  rfl

theorem rgb_hex_000 : rgb_to_hex 0 0 0 = "000000" := by
  simp only [rgb_to_hex, pyRound_mul_zero]
  rfl

theorem rgb_hex_111 : rgb_to_hex 1 1 1 = "FFFFFF" := by
  simp only [rgb_to_hex, pyRound_mul_one]
  rfl

theorem rgba_hex_000 : rgba_to_hex ⟨0, 0, 0⟩ = "000000" := by
  have h : rgba_to_hex ⟨0, 0, 0⟩ = rgb_to_hex 0 0 0 := rfl
  rw [h, rgb_hex_000]

/-- C1: the end-to-end scenario: walking the synthetic document with a red
rectangle and a black Roboto 700 16 text node yields the color mapping
cFF0000 to #FF0000 and c000000 to #000000, and exactly one text-style
entry, with fontFamily Roboto, fontWeight 700, fontSize 16 and color
000000. -/
theorem claim1_end_to_end : Main.parse_node c1tree initState = .ok c1state := by
  simp [c1tree, c1state, initState, Main.parse_node, Main.parse_nodes, parse_fills,
    Main.text_step, Main.style_name, style_key, parse_text_style, parse_text_style_try,
    next_solid_fill, re_sub_nonword, isWordChar, dictInsert, intStr, natToDec, natDecRev,
    decDigitChar, Node.type, Node.fills, Node.style, rgb_hex_100, rgb_hex_000, rgba_hex_000,
    pyInt_16]

/-! Hexadecimal decoding facts for the converter claim. -/

theorem hex2_nat_spec : ∀ m : ℕ, m < 256 →
    (leftPad2 (natToHex m)).length = 2 ∧ hexVal (leftPad2 (natToHex m)) = m ∧
      ∀ ch ∈ leftPad2 (natToHex m), isUpperHexChar ch = true := by
  decide

theorem formatHex2_data_nonneg {n : ℤ} (h : 0 ≤ n) :
    (formatHex2 n).data = leftPad2 (natToHex n.toNat) := by
  unfold formatHex2
  rw [if_neg (by omega)]

theorem channel_spec (x : ℚ) (h0 : 0 ≤ x) (h1 : x ≤ 1) :
    (formatHex2 (pyRound (x * 255))).data.length = 2 ∧
    (∀ ch ∈ (formatHex2 (pyRound (x * 255))).data, isUpperHexChar ch = true) ∧
    |(hexVal (formatHex2 (pyRound (x * 255))).data : ℚ) / 255 - x| ≤ 1 / 255 := by
  have hup : x * 255 ≤ 255 := by nlinarith
  have hdn : 0 ≤ x * 255 := by positivity
  obtain ⟨hge, hle⟩ := pyRound_bounds hdn hup
  have hlt : (pyRound (x * 255)).toNat < 256 := by omega
  obtain ⟨hl2, hval, hch⟩ := hex2_nat_spec (pyRound (x * 255)).toNat hlt
  rw [formatHex2_data_nonneg hge]
  refine ⟨hl2, hch, ?_⟩
  rw [hval]
  have hcast : (((pyRound (x * 255)).toNat : ℕ) : ℚ) = ((pyRound (x * 255) : ℤ) : ℚ) := by
    exact_mod_cast congrArg (fun z : ℤ => (z : ℚ)) (Int.toNat_of_nonneg hge)
  rw [hcast]
  have habs := pyRound_abs (x * 255)
  have heq : ((pyRound (x * 255) : ℤ) : ℚ) / 255 - x =
      (((pyRound (x * 255) : ℤ) : ℚ) - x * 255) / 255 := by
    ring
  rw [heq, abs_div, abs_of_pos (show (0:ℚ) < 255 by norm_num)]
  have hstep : |((pyRound (x * 255) : ℤ) : ℚ) - x * 255| / 255 ≤ (1/2) / 255 := by
    gcongr
  calc |((pyRound (x * 255) : ℤ) : ℚ) - x * 255| / 255 ≤ (1/2) / 255 := hstep
    _ ≤ 1 / 255 := by norm_num

/-- C8: for channels in the unit interval, rgb_to_hex produces exactly six
uppercase hexadecimal characters; decoding each two-character group and
dividing by 255 reconstructs the corresponding channel within 1/255; and
in particular black maps to 000000 and white to FFFFFF. -/
theorem claim8_rgb_to_hex (r g b : ℚ) (hr0 : 0 ≤ r) (hr1 : r ≤ 1) (hg0 : 0 ≤ g) (hg1 : g ≤ 1)
    (hb0 : 0 ≤ b) (hb1 : b ≤ 1) :
    (rgb_to_hex r g b).data.length = 6 ∧
    (∀ ch ∈ (rgb_to_hex r g b).data, isUpperHexChar ch = true) ∧
    |(hexVal ((rgb_to_hex r g b).data.take 2) : ℚ) / 255 - r| ≤ 1 / 255 ∧
    |(hexVal (((rgb_to_hex r g b).data.drop 2).take 2) : ℚ) / 255 - g| ≤ 1 / 255 ∧
    |(hexVal ((rgb_to_hex r g b).data.drop 4) : ℚ) / 255 - b| ≤ 1 / 255 ∧
    rgb_to_hex 0 0 0 = "000000" ∧ rgb_to_hex 1 1 1 = "FFFFFF" := by
  obtain ⟨hr2, hrch, hrd⟩ := channel_spec r hr0 hr1
  obtain ⟨hg2, hgch, hgd⟩ := channel_spec g hg0 hg1
  obtain ⟨hb2, hbch, hbd⟩ := channel_spec b hb0 hb1
  have hdata : (rgb_to_hex r g b).data =
      (formatHex2 (pyRound (r * 255))).data ++ ((formatHex2 (pyRound (g * 255))).data ++
        (formatHex2 (pyRound (b * 255))).data) := by
    unfold rgb_to_hex
    rw [String.data_append, String.data_append, List.append_assoc]
  obtain ⟨a1, a2, hea⟩ := List.length_eq_two.mp hr2
  obtain ⟨b1, b2, heb⟩ := List.length_eq_two.mp hg2
  obtain ⟨c1, c2, hec⟩ := List.length_eq_two.mp hb2
  rw [hea] at hrd hrch
  rw [heb] at hgd hgch
  rw [hec] at hbd hbch
  rw [hdata, hea, heb, hec]
  refine ⟨rfl, ?_, ?_, ?_, ?_, rgb_hex_000, rgb_hex_111⟩
  · intro ch hch
    rcases List.mem_append.1 hch with h | h
    · exact hrch ch h
    · rcases List.mem_append.1 h with h2 | h2
      · exact hgch ch h2
      · exact hbch ch h2
  · exact hrd
  · exact hgd
  · exact hbd

/-- Witness for C8: the conversion claim evaluated at black. -/
theorem claim8_witness :
    (rgb_to_hex 0 0 0).data.length = 6 ∧
    (∀ ch ∈ (rgb_to_hex 0 0 0).data, isUpperHexChar ch = true) ∧
    |(hexVal ((rgb_to_hex 0 0 0).data.take 2) : ℚ) / 255 - 0| ≤ 1 / 255 ∧
    |(hexVal (((rgb_to_hex 0 0 0).data.drop 2).take 2) : ℚ) / 255 - 0| ≤ 1 / 255 ∧
    |(hexVal ((rgb_to_hex 0 0 0).data.drop 4) : ℚ) / 255 - 0| ≤ 1 / 255 ∧
    rgb_to_hex 0 0 0 = "000000" ∧ rgb_to_hex 1 1 1 = "FFFFFF" :=
  claim8_rgb_to_hex 0 0 0 le_rfl zero_le_one le_rfl zero_le_one le_rfl zero_le_one

/-! Permutation invariance of the collected colors. -/

theorem colorPairsList_append : ∀ l1 l2 : List Node,
    colorPairsList (l1 ++ l2) = colorPairsList l1 ++ colorPairsList l2 := by
  intro l1
  induction l1 with
  | nil =>
    intro l2
    rw [List.nil_append, colorPairsList, List.nil_append]
  | cons n rest ih =>
    intro l2
    rw [List.cons_append, colorPairsList, colorPairsList, ih, List.append_assoc]

theorem colorPairsList_perm : ∀ {cs cs' : List Node}, cs.Perm cs' →
    (colorPairsList cs).Perm (colorPairsList cs') := by
  intro cs cs' h
  induction h with
  | nil => exact List.Perm.refl _
  | cons x h ih =>
    rw [colorPairsList, colorPairsList]
    exact ih.append_left (colorPairs x)
  | swap x y l =>
    rw [colorPairsList, colorPairsList, colorPairsList, colorPairsList]
    exact List.perm_append_comm_assoc _ _ _
  | trans h1 h2 ih1 ih2 => exact ih1.trans ih2

theorem permStep_colorPairs : ∀ {t t' : Node}, PermStep t t' →
    (colorPairs t).Perm (colorPairs t') := by
  intro t t' h
  induction h with
  | here ty fills style hperm =>
    rw [colorPairs, colorPairs]
    exact (colorPairsList_perm hperm).append_left _
  | child ty fills style pre post h ih =>
    rw [colorPairs, colorPairs, colorPairsList_append, colorPairsList_append,
      colorPairsList, colorPairsList]
    exact ((ih.append_right _).append_left _).append_left _

theorem simTree_colorPairs {t t' : Node} (h : SimTree t t') :
    (colorPairs t).Perm (colorPairs t') := by
  induction h with
  | refl => exact List.Perm.refl _
  | tail _ hstep ih => exact ih.trans (permStep_colorPairs hstep)

/-- C9: color extraction is idempotent and sibling-order independent:
running the walker a second time on the same tree leaves the colors dict
unchanged, and permuting children lists anywhere in the tree yields a
dict with the same lookup behaviour. -/
theorem claim9_color_extraction :
    (∀ (t : Node) (st1 st2 : WalkState),
      Main.parse_node t initState = .ok st1 → Main.parse_node t st1 = .ok st2 →
      st2.colors = st1.colors) ∧
    (∀ (t t' : Node) (st1 st2 : WalkState), SimTree t t' →
      Main.parse_node t initState = .ok st1 → Main.parse_node t' initState = .ok st2 →
      ∀ k, lookupA st1.colors k = lookupA st2.colors k) := by
  have hnil : ∀ p ∈ ([] : List (String × String)), p.2 = color_value_of_name p.1 := by
    intro p hp
    cases hp
  constructor
  · intro t st1 st2 h1 h2
    obtain ⟨hc1, _, _⟩ := parse_node_spec t initState st1 h1
    obtain ⟨hc2, _, _⟩ := parse_node_spec t st1 st2 h2
    rw [hc2, hc1]
    exact foldIns_id (foldIns_follows (colorPairs_follows t) hnil) (colorPairs_follows t)
      (fun p hp => by
        rw [mem_keys_foldIns]
        exact Or.inr (List.mem_map_of_mem Prod.fst hp))
  · intro t t' st1 st2 hsim h1 h2 k
    obtain ⟨hc1, _, _⟩ := parse_node_spec t initState st1 h1
    obtain ⟨hc2, _, _⟩ := parse_node_spec t' initState st2 h2
    rw [hc1, hc2]
    have hic : initState.colors = ([] : List (String × String)) := rfl
    rw [hic]
    rw [lookupA_follows (foldIns_follows (colorPairs_follows t) hnil) k,
      lookupA_follows (foldIns_follows (colorPairs_follows t') hnil) k]
    have hmem : (k ∈ (foldIns [] (colorPairs t)).map Prod.fst) ↔
        (k ∈ (foldIns [] (colorPairs t')).map Prod.fst) := by
      rw [mem_keys_foldIns, mem_keys_foldIns,
        List.Perm.mem_iff ((simTree_colorPairs hsim).map Prod.fst)]
    by_cases hm : k ∈ (foldIns ([] : List (String × String)) (colorPairs t)).map Prod.fst
    · rw [if_pos hm, if_pos (hmem.mp hm)]
    · rw [if_neg hm, if_neg (fun hc => hm (hmem.mpr hc))]

/-- Witness for C9: the two walks over c9tree and its child-swapped
variant agree on the lookup of cFF0000. -/
theorem claim9_witness :
    lookupA (WalkState.colors ⟨[("cFF0000", "#FF0000"), ("c000000", "#000000")], [], []⟩)
        "cFF0000" =
      lookupA (WalkState.colors ⟨[("c000000", "#000000"), ("cFF0000", "#FF0000")], [], []⟩)
        "cFF0000" := by
  have hsim : SimTree c9tree c9tree' :=
    Relation.ReflTransGen.single (PermStep.here none [] none (List.Perm.swap c9rect2 c9rect1 []))
  have h1 : Main.parse_node c9tree initState =
      .ok ⟨[("cFF0000", "#FF0000"), ("c000000", "#000000")], [], []⟩ := by
    simp [c9tree, c9rect1, c9rect2, Main.parse_node, Main.parse_nodes, parse_fills, dictInsert,
      initState, rgb_hex_100, rgb_hex_000]
  have h2 : Main.parse_node c9tree' initState =
      .ok ⟨[("c000000", "#000000"), ("cFF0000", "#FF0000")], [], []⟩ := by
    simp [c9tree', c9rect1, c9rect2, Main.parse_node, Main.parse_nodes, parse_fills, dictInsert,
      initState, rgb_hex_100, rgb_hex_000]
  exact claim9_color_extraction.2 c9tree c9tree' _ _ hsim h1 h2 "cFF0000"
